import Mathlib

/-!
Verification of the arxival document segmentation-and-indexing pipeline.

This file contains a shallow embedding of the core of the repository:
the section extractor (`server/ingestion/section.py`), the chunker and
section containment logic (`server/ingestion/processor.py`), the
retrieval-context reconstruction and prompt ordering
(`server/rag/rag.py`), and the batch orchestrator (`server/batch.py`).

Python strings are modelled as `List Char` (`String.data`); the helper
functions below mirror the Python `str` operations used by the code
(`split`, `strip`, `startswith`, `int(...)`, f-string decimal
formatting).  Machine integers are modelled as `Int`/`Nat` (no overflow
is relevant to the code under study).  Fallible operations are modelled
with `Option`/`Except`.
-/

namespace Arxival

/-! ### Python-like character and string helpers -/

/-- Whitespace set of Python `str.strip` / `str.split` (ASCII part;
unicode whitespace beyond these is abstracted away). -/
def pyIsSpace (c : Char) : Bool :=
  c = ' ' || c = '\t' || c = '\n' || c = '\r' || c = '\x0b' || c = '\x0c'

/-- Python `str.strip()`: drop whitespace from both ends. -/
def pyStrip (l : List Char) : List Char :=
  ((l.dropWhile pyIsSpace).reverse.dropWhile pyIsSpace).reverse

/-- Python `s.split(sep)` for a single-character separator: keeps empty
parts, never returns an empty list. -/
def splitOnChar (sep : Char) : List Char → List (List Char)
  | [] => [[]]
  | c :: rest =>
    if c = sep then [] :: splitOnChar sep rest
    else
      match splitOnChar sep rest with
      | [] => [[c]]
      | p :: ps => (c :: p) :: ps

/-- Python `s.split("\n\n")` (used by the chunker to find paragraph
boundaries): split on non-overlapping occurrences, left to right. -/
def splitNN : List Char → List (List Char)
  | '\n' :: '\n' :: rest => [] :: splitNN rest
  | c :: rest =>
    (match splitNN rest with
     | [] => [[c]]
     | p :: ps => (c :: p) :: ps)
  | [] => [[]]

/-- Python `s.split("Page ")` (used by the section extractor's page
marker detection). -/
def splitPage : List Char → List (List Char)
  | 'P' :: 'a' :: 'g' :: 'e' :: ' ' :: rest => [] :: splitPage rest
  | c :: rest =>
    (match splitPage rest with
     | [] => [[c]]
     | p :: ps => (c :: p) :: ps)
  | [] => [[]]

/-- Worker for `splitWs`; `acc` is the current word, reversed. -/
def splitWsGo : List Char → List Char → List (List Char)
  | [], acc => if acc.isEmpty then [] else [acc.reverse]
  | c :: rest, acc =>
    if pyIsSpace c then
      if acc.isEmpty then splitWsGo rest [] else acc.reverse :: splitWsGo rest []
    else splitWsGo rest (c :: acc)

/-- Python `s.split()` with no argument: split on whitespace runs,
dropping empty parts. -/
def splitWs (l : List Char) : List (List Char) :=
  splitWsGo l []

def isDigitCh (c : Char) : Bool :=
  '0' ≤ c && c ≤ '9'

def digitVal (c : Char) : Nat :=
  c.toNat - '0'.toNat

/-- Worker for `parseUInt`: digits already started; a single `'_'` is
allowed between digits (Python numeric literal rule for `int()`). -/
def parseDigitsGo : List Char → Nat → Option Nat
  | [], acc => some acc
  | c :: rest, acc =>
    if isDigitCh c then parseDigitsGo rest (acc * 10 + digitVal c)
    else
      if c = '_' then
        match rest with
        | c2 :: rest2 =>
          if isDigitCh c2 then parseDigitsGo rest2 (acc * 10 + digitVal c2) else none
        | [] => none
      else none

/-- Parse a nonempty run of ASCII digits (with Python's between-digit
underscores); `none` on anything else. -/
def parseUInt : List Char → Option Nat
  | c :: rest => if isDigitCh c then parseDigitsGo rest (digitVal c) else none
  | [] => none

/-- Python `int(token)` on a whitespace-free token: optional sign, then
digits.  (Unicode digits are abstracted to ASCII.) -/
def pyToInt : List Char → Option Int
  | '-' :: rest => (parseUInt rest).map (fun n => -(n : Int))
  | '+' :: rest => (parseUInt rest).map (fun n => (n : Int))
  | l => (parseUInt l).map (fun n => (n : Int))

/-- The decimal digit characters. -/
def digitChar : Nat → Char
  | 0 => '0'
  | 1 => '1'
  | 2 => '2'
  | 3 => '3'
  | 4 => '4'
  | 5 => '5'
  | 6 => '6'
  | 7 => '7'
  | 8 => '8'
  | 9 => '9'
  | _ => '*'

/-- Fuel-based decimal printer worker (fuel keeps it structurally
recursive so the kernel can evaluate it). -/
def decCharsGo : Nat → Nat → List Char
  | 0, _ => []
  | fuel + 1, n =>
    if n < 10 then [digitChar n] else decCharsGo fuel (n / 10) ++ [digitChar (n % 10)]

/-- Decimal representation of a natural number, as produced by a Python
f-string such as `f"{c1}.{c2}"`. -/
def decChars (n : Nat) : List Char :=
  decCharsGo (n + 1) n

/-- Decimal value of a digit list (left inverse of `decChars`). -/
def decValGo : List Char → Nat → Nat
  | [], acc => acc
  | c :: rest, acc => decValGo rest (acc * 10 + digitVal c)

/-! ### Section extractor (`server/ingestion/section.py`) -/

/-- The `Section` pydantic model of `section.py`: a section number such
as `"3.2"`, a title, a start page, a subsection flag and an optional
parent name. -/
structure Section where
  name : String
  title : String
  start_page : Int
  is_subsection : Bool
  parent_name : Option String
deriving DecidableEq, Repr

/-- The instance state of `SectionExtractor`: the per-depth running
counters `current_sections` and the per-depth `last_section` names. -/
structure ExtractorState where
  c1 : Nat
  c2 : Nat
  c3 : Nat
  l1 : Option String
  l2 : Option String
  l3 : Option String
deriving DecidableEq, Repr

/-- `SectionExtractor.__init__`: all counters 0, all last-section
pointers `None`. -/
def initState : ExtractorState :=
  ⟨0, 0, 0, none, none, none⟩

/-- How `extract_sections` treats one line: a page marker (when
`'Page ' in line` and the token after the last `"Page "` parses as an
int), a heading of depth 1-3 (line starts with `'#'`, at most three of
them), or plain text (including headings deeper than 3 and lines whose
page-marker parse failed). -/
inductive LineKind where
  | marker (p : Int)
  | heading (level : Nat) (title : List Char)
  | plain

/-- Line classification of `extract_sections` (lines 49-65 of
`section.py`): the page-marker branch runs first and `continue`s only
when the `int(...)` parse succeeds; otherwise control falls through to
the heading check. -/
def classifyLine (line : List Char) : LineKind :=
  let pageParts := splitPage line
  let marker? : Option Int :=
    if 2 ≤ pageParts.length then
      match splitWs (pageParts.getLastD []) with
      | tok :: _ => pyToInt tok
      | [] => none
    else none
  match marker? with
  | some p => .marker p
  | none =>
    match line with
    | '#' :: _ =>
      let level := (line.takeWhile (fun c => c = '#')).length
      if level > 3 then .plain
      else .heading level (pyStrip (line.dropWhile (fun c => c = '#')))
    | _ => .plain

/-- One iteration of the `extract_sections` loop: returns the new
extractor state, the new page cursor, and the emitted section (if the
line was a heading).  Depth 1 increments `c1` and resets `c2, c3`;
depth 2 increments `c2` and resets `c3`; depth 3 increments `c3`.
`is_subsection` is `level > 2` and `parent_name` is
`last_section[level-1] if level > 2 else None`, exactly as in the
source (lines 66-92). -/
def processLine (st : ExtractorState) (page : Int) (line : List Char) :
    ExtractorState × Int × Option Section :=
  match classifyLine line with
  | .marker p => (st, p, none)
  | .plain => (st, page, none)
  | .heading level title =>
    match level with
    | 1 =>
      let c1' := st.c1 + 1
      let nm : String := ⟨decChars c1'⟩
      ({ st with c1 := c1', c2 := 0, c3 := 0, l1 := some nm }, page,
        some ⟨nm, ⟨title⟩, page, false, none⟩)
    | 2 =>
      let c2' := st.c2 + 1
      let nm : String := ⟨decChars st.c1 ++ '.' :: decChars c2'⟩
      ({ st with c2 := c2', c3 := 0, l2 := some nm }, page,
        some ⟨nm, ⟨title⟩, page, false, none⟩)
    | _ =>
      let c3' := st.c3 + 1
      let nm : String := ⟨decChars st.c1 ++ '.' :: decChars st.c2 ++ '.' :: decChars c3'⟩
      ({ st with c3 := c3', l3 := some nm }, page,
        some ⟨nm, ⟨title⟩, page, true, st.l2⟩)

/-- The `extract_sections` line loop, accumulating emitted sections. -/
def extractLoop (acc : List Section) (st : ExtractorState) (page : Int) :
    List (List Char) → List Section × ExtractorState
  | [] => (acc, st)
  | line :: rest =>
    let r := processLine st page line
    extractLoop (acc ++ r.2.2.toList) r.1 r.2.1 rest

/-- `SectionExtractor.extract_sections`: split the markdown into lines,
start the page cursor at 1, and process each line.  The extractor
state is threaded through and returned (it lives on the instance and
is never reset between calls). -/
def extractSections (st : ExtractorState) (md : String) :
    List Section × ExtractorState :=
  extractLoop [] st 1 (splitOnChar '\n' md.data)

/-- Numeric path of a section name, as in `_validate_sections`'s sort
key `[int(n) for n in x.name.split('.')]` (unparsable components are
mapped to 0; extraction only ever emits decimal components). -/
def numPath (s : String) : List Nat :=
  (splitOnChar '.' s.data).map (fun p => (parseUInt p).getD 0)

/-- Strict lexicographic order on numeric paths: Python's `<` on lists
of ints (a strict prefix is smaller). -/
def pathLtB : List Nat → List Nat → Bool
  | [], [] => false
  | [], _ :: _ => true
  | _ :: _, [] => false
  | a :: as, b :: bs =>
    if a < b then true else if b < a then false else pathLtB as bs

/-- `SectionExtractor._validate_sections`: sort by numeric path, then
drop duplicate names (keeping the first occurrence) and sections with
nonpositive start pages.  (This helper exists in the source but is
never invoked by `extract_sections`.) -/
def validateSectionsLoop : List Section → List String → List Section
  | [], _ => []
  | s :: rest, seen =>
    if s.name ∈ seen then validateSectionsLoop rest seen
    else if s.start_page ≤ 0 then validateSectionsLoop rest seen
    else s :: validateSectionsLoop rest (s.name :: seen)

/-- Number of depth-1 heading lines of a markdown text, under the same
line classification used by `extract_sections`. -/
def h1Count (md : String) : Nat :=
  ((splitOnChar '\n' md.data).filter
    (fun l => match classifyLine l with | .heading 1 _ => true | _ => false)).length

/-- A section name without a dotted component — the form produced exactly
by the depth-1 branch of `extract_sections` (deeper branches always join
counters with '.'). -/
def noDotName (s : Section) : Bool := decide ('.' ∉ s.name.data)

/-! ### Chunker (`server/ingestion/processor.py`, `_create_chunks`) and
chunk metadata (`server/ingestion/models.py`, `PaperChunk`) -/

/-- The metadata dictionary of a `PaperChunk` after `__post_init__` has
merged in the defaults: all documented keys exist, defaulting to
`None`/`False`.  `is_subsection` is the extra key added by
`_annotate_chunks_with_sections`. -/
structure ChunkMetadata where
  paper_id : Option String := none
  page_num : Option Int := none
  section_id : Option String := none
  parent_section_id : Option String := none
  chunk_index : Option Int := none
  has_equations : Bool := false
  source_type : Option String := none
  is_subsection : Option Bool := none
deriving DecidableEq, Repr

/-- A chunk of paper text with its metadata. -/
structure PaperChunk where
  text : String
  metadata : ChunkMetadata
deriving DecidableEq, Repr

/-- Worker for `hasEquations`: after an opening `"$$"`, look for a
closing `"$$"` preceded by at least one character, none of which may be
a newline (the regex `\$\$.+?\$\$` is compiled without DOTALL). -/
def hasEqGo : List Char → Bool → Bool
  | c1 :: c2 :: rest, seen =>
    if c1 = '$' && c2 = '$' && seen then true
    else if c1 = '\n' then false
    else hasEqGo (c2 :: rest) true
  | _, _ => false

/-- `bool(re.search(r'\$\$.+?\$\$', text))`: does the text contain
`"$$"`, then one or more non-newline characters, then `"$$"`? -/
def hasEquations : List Char → Bool
  | [] => false
  | c :: rest =>
    (match c, rest with
     | '$', '$' :: r => hasEqGo r false
     | _, _ => false) || hasEquations rest

/-- Decimal value of the maximal digit prefix. -/
def digitsVal (l : List Char) : Nat :=
  decValGo (l.takeWhile isDigitCh) 0

/-- First match of the regex `Page (\d+)`: scan left to right for the
literal `"Page "` followed by at least one digit; the capture is the
maximal digit run. -/
def findPageNum : List Char → Option Nat
  | [] => none
  | c :: rest =>
    match c, rest with
    | 'P', 'a' :: 'g' :: 'e' :: ' ' :: d :: r2 =>
      if isDigitCh d then some (digitsVal (d :: r2)) else findPageNum rest
    | _, _ => findPageNum rest

/-- `PDFProcessor._estimate_page_num`: the first `Page N` marker in the
text, else 1. -/
def estimatePage (text : List Char) : Int :=
  match findPageNum text with
  | some n => (n : Int)
  | none => 1

/-- Chunk construction at a seal point of `_create_chunks`: the chunk
text is the buffered paragraphs joined with `"\n\n"`, and the metadata
carries only `has_equations` and `page_num` (merged with the defaults
by `PaperChunk.__post_init__`); in particular `chunk_index` stays
`None`. -/
def mkChunk (text : List Char) : PaperChunk :=
  { text := ⟨text⟩,
    metadata := { has_equations := hasEquations text, page_num := some (estimatePage text) } }

/-- Python `'\n\n'.join(parts)`. -/
def joinNN : List (List Char) → List Char
  | [] => []
  | [p] => p
  | p :: q :: rest => p ++ '\n' :: '\n' :: joinNN (q :: rest)

/-- The paragraph loop of `_create_chunks`, producing the successive
sealed buffers (each buffer is the list of paragraphs joined into one
chunk).  `buf` is `current_chunk` and `len` is `current_length`.  A
buffer is sealed when appending the next paragraph would push `len`
over `cs` and the buffer is nonempty; the next buffer is then seeded
with the sealed buffer's last paragraph if `co > 0`.  A nonempty final
buffer is emitted at the end. -/
def chunkLoopBufs (cs co : Nat) : List (List Char) → List (List Char) → Nat →
    List (List (List Char))
  | [], buf, _ => if buf.isEmpty then [] else [buf]
  | p :: rest, buf, len =>
    if cs < len + p.length && !buf.isEmpty then
      let seed : List (List Char) := if 0 < co then [buf.getLastD []] else []
      let seedLen : Nat := if 0 < co then (buf.getLastD []).length else 0
      buf :: chunkLoopBufs cs co rest (seed ++ [p]) (seedLen + p.length)
    else
      chunkLoopBufs cs co rest (buf ++ [p]) (len + p.length)

/-- The nonempty stripped paragraphs of a text: `text.split('\n\n')`,
each `strip()`ed, empty ones skipped (the loop `continue`s on them
without touching any state). -/
def paragraphsOf (text : String) : List (List Char) :=
  ((splitNN text.data).map pyStrip).filter (fun p => !p.isEmpty)

/-- The sealed buffers produced by `_create_chunks` on a text. -/
def createChunksBufs (cs co : Nat) (text : String) : List (List (List Char)) :=
  chunkLoopBufs cs co (paragraphsOf text) [] 0

/-- `PDFProcessor._create_chunks`: one chunk per sealed buffer. -/
def createChunks (cs co : Nat) (text : String) : List PaperChunk :=
  (createChunksBufs cs co text).map (fun b => mkChunk (joinNN b))

/-! ### Stable sorting, and section containment
(`PDFProcessor._find_containing_section`) -/

/-- Insert `x` before the first element `y` with `¬ lt y x`.  With a
strict comparison `lt` this is the stable insertion step. -/
def orderedInsertLt {α : Type} (lt : α → α → Bool) (x : α) : List α → List α
  | [] => [x]
  | y :: rest => if lt y x then y :: orderedInsertLt lt x rest else x :: y :: rest

/-- Stable insertion sort.  For a total preorder key this produces the
same list as Python's (stable) `sorted`. -/
def insertionSortLt {α : Type} (lt : α → α → Bool) : List α → List α
  | [] => []
  | x :: xs => orderedInsertLt lt x (insertionSortLt lt xs)

/-- The key comparison of `sorted(sections, key=lambda s: s.start_page)`. -/
def secLt (a b : Section) : Bool :=
  a.start_page < b.start_page

/-- `Section.get_id`: `f"{self.name}: {self.title}"`. -/
def getId (s : Section) : String :=
  ⟨s.name.data ++ ':' :: ' ' :: s.title.data⟩

/-- The scan of `_find_containing_section`: walk the sorted sections,
remember the last one with `start_page ≤ page`, and break at the first
one past the page. -/
def findScan (page : Int) : List Section → Option Section → Option Section
  | [], acc => acc
  | s :: rest, acc => if s.start_page ≤ page then findScan page rest (some s) else acc

/-- `PDFProcessor._find_containing_section`: `None` when the chunk's
`page_num` is falsy (absent or 0), else the scan over the sections
sorted by `start_page`. -/
def findContainingSection (chunk : PaperChunk) (sections : List Section) :
    Option Section :=
  match chunk.metadata.page_num with
  | none => none
  | some p => if p = 0 then none else findScan p (insertionSortLt secLt sections) none

/-- `PDFProcessor._annotate_chunks_with_sections`, for one chunk: set
`section_id` and `is_subsection` when a containing section was found,
else leave the chunk untouched. -/
def annotateChunk (sections : List Section) (ch : PaperChunk) : PaperChunk :=
  match findContainingSection ch sections with
  | none => ch
  | some sec =>
    { ch with metadata :=
      { ch.metadata with section_id := some (getId sec),
                         is_subsection := some sec.is_subsection } }

/-- `PDFProcessor._annotate_chunks_with_sections`. -/
def annotateChunksWithSections (chunks : List PaperChunk) (sections : List Section) :
    List PaperChunk :=
  chunks.map (annotateChunk sections)

/-- One step of the selector the specification describes for section
containment: among the eligible sections, keep the latest one attaining
the maximal start page (a tie replaces the held section, so the
later-occurring section wins). -/
def claimStep (acc : Option Section) (s : Section) : Option Section :=
  match acc with
  | none => some s
  | some a => if a.start_page ≤ s.start_page then some s else acc

/-- The containment rule as the specification words it: filter the
sections to those with `start_page ≤ page` (in extraction order), then
keep the last one with maximal `start_page`, later extraction order
winning ties. -/
def claimSelect (sections : List Section) (page : Int) : Option Section :=
  (sections.filter (fun s => s.start_page ≤ page)).foldl claimStep none

/-! ### Retrieval-context reconstruction (`server/rag/rag.py`, `retrieve`) -/

/-- JSON values, as returned by `json.loads`. -/
inductive JVal where
  | jnull
  | jbool (b : Bool)
  | jint (n : Int)
  | jstr (s : String)
  | jarr (xs : List JVal)
  | jobj (kvs : List (String × JVal))
deriving Repr, BEq

/-- A serialized sub-document as stored in the vector index's metadata
(a string), modelled by its parse status: the empty string (falsy;
`sanitize_metadata` stores `None` as `""`), a nonempty string that is
not valid JSON, or a nonempty string parsing to a JSON value.
`json.loads` raises on the first two. -/
inductive StoredDoc where
  | emptyStr
  | badJson
  | val (j : JVal)
deriving Repr

/-- Python truthiness of the stored string. -/
def storedTruthy : StoredDoc → Bool
  | .emptyStr => false
  | _ => true

/-- `json.loads` on a stored sub-document; an `Except.error` models the
raised `JSONDecodeError`/`ValueError`. -/
def pyLoads : StoredDoc → Except Unit JVal
  | .val j => .ok j
  | _ => .error ()

/-- Python truthiness of a parsed JSON value. -/
def jTruthy : JVal → Bool
  | .jnull => false
  | .jbool b => b
  | .jint n => !(n == 0)
  | .jstr s => !s.data.isEmpty
  | .jarr xs => !xs.isEmpty
  | .jobj kvs => !kvs.isEmpty

/-- Is `pat` a contiguous substring of `l`?  (Python `key in str`.) -/
def isSubstr (pat : List Char) : List Char → Bool
  | [] => pat.isEmpty
  | c :: rest => pat.isPrefixOf (c :: rest) || isSubstr pat rest

/-- Dictionary lookup (`json.loads` output has unique keys, the last
occurrence winning, so a plain association-list lookup suffices). -/
def jGet (kvs : List (String × JVal)) (key : String) : Option JVal :=
  (kvs.find? (fun kv => kv.1 = key)).map (fun kv => kv.2)

/-- Python `key in x` for the container kinds: dict key membership,
list element equality (string elements only can match a string key),
substring test for strings; a `TypeError` (modelled as `Except.error`)
for the non-container kinds. -/
def jContains (j : JVal) (key : String) : Except Unit Bool :=
  match j with
  | .jobj kvs => .ok (kvs.any (fun kv => kv.1 = key))
  | .jarr xs => .ok (xs.any (fun v => match v with | .jstr s => s = key | _ => false))
  | .jstr s => .ok (isSubstr key.data s.data)
  | _ => .error ()

/-- Numeric view of a JSON value: Python treats `bool` as `int` in
comparisons. -/
def jNum : JVal → Option Int
  | .jint n => some n
  | .jbool b => some (if b then 1 else 0)
  | _ => none

/-- Python `==` on JSON values: `bool` counts as `int` at the top
level; containers compare structurally.  (Cross-type numerics nested
inside containers, and dict key order, are abstracted to structural
equality; neither arises in this pipeline's comparisons.) -/
def jeq (a b : JVal) : Bool :=
  match jNum a, jNum b with
  | some x, some y => x == y
  | _, _ =>
    match a, b with
    | .jnull, .jnull => true
    | .jstr x, .jstr y => x == y
    | .jarr xs, .jarr ys => JVal.jarr xs == JVal.jarr ys
    | .jobj xs, .jobj ys => JVal.jobj xs == JVal.jobj ys
    | _, _ => false

/-- The default metadata keys of `PaperChunk` (`models.py`). -/
def chunkMetaDefaults : List (String × JVal) :=
  [("paper_id", .jnull), ("page_num", .jnull), ("section_id", .jnull),
   ("parent_section_id", .jnull), ("chunk_index", .jnull),
   ("has_equations", .jbool false), ("source_type", .jnull)]

/-- `PaperChunk.__post_init__`: `{**default_metadata, **provided}` —
default keys in default order with provided values overriding, then
the provided-only keys in their order. -/
def mergeDefaults (kvs : List (String × JVal)) : List (String × JVal) :=
  chunkMetaDefaults.map (fun kv => (kv.1, (jGet kvs kv.1).getD kv.2)) ++
    kvs.filter (fun kv => !(chunkMetaDefaults.any (fun d => d.1 = kv.1)))

/-- A reconstructed chunk: the hit's document text plus the
deserialized metadata dictionary. -/
structure RChunk where
  text : String
  metadata : List (String × JVal)
deriving Repr

/-- A reconstructed retrieval context.  The field `sec` is the
source's `section` attribute (`section` is a Lean keyword).  (The
float score `1 - distance` is outside the shallow embedding and
carries no information used by the claims, so it is omitted.) -/
structure RetrievedContext where
  chunk : RChunk
  paper_metadata : JVal
  sec : Option Section
deriving Repr

/-- One ranked hit as returned by the vector index: the document text
and the packed metadata's three serialized sub-documents.
`section_data` is `none` when the key is absent from the packed
metadata. -/
structure StoredHit where
  text : String
  chunk_metadata : StoredDoc
  paper_metadata : StoredDoc
  section_data : Option StoredDoc
deriving Repr

/-- `Section(**section_data)` under pydantic validation: the typed
fields must be present with the right types (coercions beyond these
are abstracted away); extra keys are ignored; a validation failure
(modelled as `none`) raises `ValidationError`, a `ValueError`, which
`retrieve` catches. -/
def validateSection (kvs : List (String × JVal)) : Option Section := do
  let name ← match jGet kvs "name" with | some (.jstr s) => some s | _ => none
  let title ← match jGet kvs "title" with | some (.jstr s) => some s | _ => none
  let sp ← match jGet kvs "start_page" with | some (.jint n) => some n | _ => none
  let isSub ← match jGet kvs "is_subsection" with | some (.jbool b) => some b | _ => none
  let parent ← match jGet kvs "parent_name" with
    | some (.jstr s) => some (some s)
    | some .jnull => some none
    | none => some (none : Option String)
    | _ => none
  some ⟨name, title, sp, isSub, parent⟩

/-- The section reconstruction of `retrieve` (rag.py lines 210-231):
skip a falsy or absent `section_data`; `json.loads` failures and
pydantic `ValueError`s are caught and leave the section `None`; the
required-field check runs `field in section_data`, whose `TypeError`
on a non-container is NOT caught, and `Section(**x)` on a truthy
non-mapping that passes the field check raises an uncaught
`TypeError`. -/
def parseSectionData (sd? : Option StoredDoc) : Except Unit (Option Section) :=
  match sd? with
  | none => .ok none
  | some sd =>
    if storedTruthy sd then
      match pyLoads sd with
      | .error _ => .ok none
      | .ok j =>
        if jTruthy j then do
          let h1 ← jContains j "name"
          let h2 ← jContains j "title"
          let h3 ← jContains j "start_page"
          let h4 ← jContains j "is_subsection"
          if h1 && h2 && h3 && h4 then
            match j with
            | .jobj kvs => .ok (validateSection kvs)
            | _ => .error ()
          else .ok none
        else .ok none
    else .ok none

/-- Reconstruction of one hit (`retrieve`, lines 203-240): the
`chunk_metadata` and `paper_metadata` sub-documents are deserialized
WITHOUT a surrounding try/except, so their failures (and a non-dict
`chunk_metadata`, rejected by `PaperChunk.__post_init__`) propagate;
only the section sub-document is parsed defensively. -/
def reconstructOne (hit : StoredHit) : Except Unit RetrievedContext := do
  let cm ← pyLoads hit.chunk_metadata
  let kvs ← match cm with
    | .jobj kvs => Except.ok kvs
    | _ => Except.error ()
  let pm ← pyLoads hit.paper_metadata
  let sec ← parseSectionData hit.section_data
  Except.ok ⟨⟨hit.text, mergeDefaults kvs⟩, pm, sec⟩

/-- The reconstruction loop of `retrieve` over the ranked hits: an
uncaught exception aborts the whole retrieval (no contexts are
returned). -/
def reconstructContexts : List StoredHit → Except Unit (List RetrievedContext)
  | [] => .ok []
  | h :: rest => do
    let c ← reconstructOne h
    let cs ← reconstructContexts rest
    .ok (c :: cs)

/-! ### Prompt assembly ordering (`server/rag/rag.py`, `_build_prompt`) -/

/-- Python `<` on strings: lexicographic comparison of code points. -/
def strLtB : List Char → List Char → Bool
  | [], [] => false
  | [], _ :: _ => true
  | _ :: _, [] => false
  | a :: as, b :: bs => if a < b then true else if b < a then false else strLtB as bs

/-- Python `<` on JSON scalar values: numbers (bools included) compare
numerically, strings lexicographically; other mixes raise `TypeError`
(container comparisons are abstracted to an error; the pipeline never
compares them here). -/
def pyJLt (a b : JVal) : Except Unit Bool :=
  match jNum a, jNum b with
  | some x, some y => .ok (x < y)
  | _, _ =>
    match a, b with
    | .jstr x, .jstr y => .ok (strLtB x.data y.data)
    | _, _ => .error ()

/-- The sort key of `_build_prompt` (line 290-293):
`(x.section.name if x.section else "999",
x.chunk.metadata.get("chunk_index", 0))`. -/
def ctxKey (ctx : RetrievedContext) : List Char × JVal :=
  ((match ctx.sec with
    | some s => s.name.data
    | none => "999".data),
   (jGet ctx.chunk.metadata "chunk_index").getD (.jint 0))

/-- Python `<` on the key tuples: walk the components, skipping equal
ones; the first unequal pair decides (and only there can a `TypeError`
arise). -/
def keyLt (a b : List Char × JVal) : Except Unit Bool :=
  if a.1 = b.1 then
    if jeq a.2 b.2 then .ok false else pyJLt a.2 b.2
  else .ok (strLtB a.1 b.1)

/-- Stable insertion step with a fallible comparison. -/
def orderedInsertE {α : Type} (lt : α → α → Except Unit Bool) (x : α) :
    List α → Except Unit (List α)
  | [] => .ok [x]
  | y :: rest => do
    if (← lt y x) then
      let r ← orderedInsertE lt x rest
      .ok (y :: r)
    else .ok (x :: y :: rest)

/-- Stable sort with a fallible comparison.  On inputs whose keys are
pairwise comparable this produces exactly the stable sort, hence the
same list as Python's `sorted`; on other inputs Python's behaviour
depends on which comparisons timsort happens to perform, and the model
is only used with comparable keys. -/
def insertionSortE {α : Type} (lt : α → α → Except Unit Bool) :
    List α → Except Unit (List α)
  | [] => .ok []
  | x :: xs => do orderedInsertE lt x (← insertionSortE lt xs)

/-- The per-paper context ordering of `_build_prompt`. -/
def sortPaperContexts (ctxs : List RetrievedContext) :
    Except Unit (List RetrievedContext) :=
  insertionSortE (fun a b => keyLt (ctxKey a) (ctxKey b)) ctxs

/-- `ctx.paper_metadata["id"]`: a missing key or a non-dict metadata
raises (`KeyError`/`TypeError`). -/
def pyGetId (ctx : RetrievedContext) : Except Unit JVal :=
  match ctx.paper_metadata with
  | .jobj kvs =>
    match jGet kvs "id" with
    | some v => .ok v
    | none => .error ()
  | _ => .error ()

/-- Append a context to its paper's group, creating the group at the
end on first sight (Python dict insertion order). -/
def insertGroup (gs : List (JVal × List RetrievedContext)) (pid : JVal)
    (ctx : RetrievedContext) : List (JVal × List RetrievedContext) :=
  match gs with
  | [] => [(pid, [ctx])]
  | (k, cs) :: rest =>
    if jeq k pid then (k, cs ++ [ctx]) :: rest
    else (k, cs) :: insertGroup rest pid ctx

/-- The grouping loop of `_build_prompt` (lines 259-274), restricted to
the context lists (the figure bookkeeping has no effect on grouping or
ordering and is omitted). -/
def groupGo (acc : List (JVal × List RetrievedContext)) :
    List RetrievedContext → Except Unit (List (JVal × List RetrievedContext))
  | [] => .ok acc
  | c :: rest => do groupGo (insertGroup acc (← pyGetId c) c) rest

/-- Group the retrieved contexts by paper id, in first-seen order. -/
def groupByPaper (ctxs : List RetrievedContext) :
    Except Unit (List (JVal × List RetrievedContext)) :=
  groupGo [] ctxs

/-- Sort each paper's group. -/
def sortGroups : List (JVal × List RetrievedContext) →
    Except Unit (List (JVal × List RetrievedContext))
  | [] => .ok []
  | (k, cs) :: rest => do
    let cs' ← sortPaperContexts cs
    let rest' ← sortGroups rest
    .ok ((k, cs') :: rest')

/-- The order in which `_build_prompt` emits contexts: papers in
first-seen order, each paper's contexts sorted by the
`(section name string, chunk_index)` key. -/
def buildPromptOrder (ctxs : List RetrievedContext) :
    Except Unit (List (JVal × List RetrievedContext)) := do
  sortGroups (← groupByPaper ctxs)

/-! ### Batch orchestrator (`server/batch.py`, `BatchIngester`) -/

/-- Deterministic per-paper outcome of the fetch collaborator: a truthy
result, a falsy result (permanent unavailability), or a transient
transport error on every attempt. -/
inductive FetchRes where
  | fOk
  | fFalsy
  | fTransient
deriving DecidableEq, Repr

/-- Deterministic per-paper outcome of `process_pdf`: an exception,
an empty chunk/section result, or a nonempty result. -/
inductive ProcRes where
  | pRaise
  | pEmpty
  | pOk
deriving DecidableEq, Repr

/-- The orchestrator's environment: the collaborators' behaviour per
paper id, assumed deterministic within a run. -/
structure OrchEnv where
  fetch : String → FetchRes
  process : String → ProcRes
  ragOk : String → Bool
  cachedInit : String → Bool

/-- The orchestrator's observable state: the in-memory skipped set,
the error and skip logs (append-only), the call traces of the fetch
and processing collaborators, the PDF cache, and the successive
checkpoint file contents. -/
structure OrchState where
  skipped : List String
  errorLog : List (String × String)
  skipLog : List (String × String)
  fetchCalls : List String
  processCalls : List String
  cache : List String
  checkpointWrites : List (List String)
deriving Repr, DecidableEq

/-- `BatchIngester._log_error`. -/
def logError (st : OrchState) (pid stage : String) : OrchState :=
  { st with errorLog := st.errorLog ++ [(pid, stage)] }

/-- `BatchIngester._log_skip`: appends to the skip log and to the
in-memory skipped set. -/
def logSkip (st : OrchState) (pid reason : String) : OrchState :=
  { st with skipLog := st.skipLog ++ [(pid, reason)],
            skipped := st.skipped ++ [pid] }

/-- Steps 2-3 of `process_single_paper` (content in hand): call
`process_pdf`; on an exception, log the error with stage `process`,
skip with `process_error` and re-raise, upon which the outer handler
logs stage `overall` and skips with `rag_error`; on an empty result,
skip with `processing_failed`; else call the RAG insertion, whose
failure is logged with stage `rag`, skipped with `rag_error`,
re-raised and caught again by the outer handler. -/
def afterContent (env : OrchEnv) (st : OrchState) (pid : String) :
    OrchState × Except Unit Bool :=
  let st := { st with processCalls := st.processCalls ++ [pid] }
  match env.process pid with
  | .pRaise =>
    let st := logSkip (logError st pid "process") pid "process_error"
    let st := logSkip (logError st pid "overall") pid "rag_error"
    (st, .error ())
  | .pEmpty => (logSkip st pid "processing_failed", .ok false)
  | .pOk =>
    if env.ragOk pid then (st, .ok true)
    else
      let st := logSkip (logError st pid "rag") pid "rag_error"
      let st := logSkip (logError st pid "overall") pid "rag_error"
      (st, .error ())

/-- `BatchIngester.process_single_paper`: immediately return `False`
for an id in the skipped set; use the cached PDF when present, else
fetch with retry (`_fetch_with_retry`, `backoff` with `max_tries=3`:
a deterministically transient fetch is attempted three times, each
attempt logging a `fetch` error, and the final exception reaches the
outer handler); a falsy fetch result is the permanent skip
`fetch_failed`; a truthy result is copied into the cache. -/
def processSinglePaper (env : OrchEnv) (st : OrchState) (pid : String) :
    OrchState × Except Unit Bool :=
  if pid ∈ st.skipped then (st, .ok false)
  else if pid ∈ st.cache || env.cachedInit pid then afterContent env st pid
  else
    match env.fetch pid with
    | .fOk =>
      let st := { st with fetchCalls := st.fetchCalls ++ [pid],
                          cache := st.cache ++ [pid] }
      afterContent env st pid
    | .fFalsy =>
      let st := { st with fetchCalls := st.fetchCalls ++ [pid] }
      (logSkip st pid "fetch_failed", .ok false)
    | .fTransient =>
      let st := { st with
        fetchCalls := st.fetchCalls ++ [pid, pid, pid],
        errorLog := st.errorLog ++ [(pid, "fetch"), (pid, "fetch"), (pid, "fetch")] }
      let st := logSkip (logError st pid "overall") pid "rag_error"
      (st, .error ())

/-- One batch: `asyncio.gather(..., return_exceptions=True)` over the
batch's papers, collecting each paper's result (the cooperative
interleaving of distinct papers is modelled sequentially; the shared
state is only ever appended to). -/
def runBatch (env : OrchEnv) (st : OrchState) :
    List String → OrchState × List (String × Except Unit Bool)
  | [] => (st, [])
  | pid :: rest =>
    let r := processSinglePaper env st pid
    let rr := runBatch env r.1 rest
    (rr.1, (pid, r.2) :: rr.2)

/-- The ids appended to `processed_ids` after a batch: every paper
whose result is not an exception (note that a `False` skip result IS
counted, exactly as in the source's `isinstance` check). -/
def newlyProcessed (results : List (String × Except Unit Bool)) : List String :=
  (results.filter (fun r => match r.2 with | .ok _ => true | .error _ => false)).map
    (fun r => r.1)

/-- `processed_ids.update(newly)`: set insertion. -/
def setAdd (processed newly : List String) : List String :=
  processed ++ newly.filter (fun p => p ∉ processed)

/-- Fuel-driven batch splitting (`papers[i:i+batch_size]`). -/
def toBatchesGo (bs : Nat) : Nat → List String → List (List String)
  | 0, _ => []
  | _, [] => []
  | fuel + 1, l => l.take bs :: toBatchesGo bs fuel (l.drop bs)

/-- Split the filtered paper list into consecutive batches of size
`bs`. -/
def toBatches (bs : Nat) (l : List String) : List (List String) :=
  toBatchesGo bs l.length l

/-- The batch loop of `ingest_papers`: run each batch, extend
`processed_ids` with the non-exception papers, and overwrite the
checkpoint file with the full set. -/
def ingestLoop (env : OrchEnv) :
    List (List String) → OrchState → List String → OrchState × List String
  | [], st, processed => (st, processed)
  | batch :: rest, st, processed =>
    let r := runBatch env st batch
    let processed' := setAdd processed (newlyProcessed r.2)
    let st' := { r.1 with checkpointWrites := r.1.checkpointWrites ++ [processed'] }
    ingestLoop env rest st' processed'

/-- `BatchIngester.ingest_papers` with an explicit paper list: papers
already in the loaded checkpoint are filtered out before any batch is
formed; when nothing remains the function returns without fetching or
writing; otherwise the batches are processed in order.  (The
query-driven paper listing and the inter-batch cooldown are
scheduling-only and have no effect on the modelled state.) -/
def ingestPapers (env : OrchEnv) (st0 : OrchState) (processed0 : List String)
    (papers : List String) (bs : Nat) : OrchState × List String :=
  let papers' := papers.filter (fun p => p ∉ processed0)
  if papers'.isEmpty then (st0, processed0)
  else ingestLoop env (toBatches bs papers') st0 processed0

/-! ### Statement-level definitions -/

/-- Total character length of a paragraph buffer (the chunker's
`current_length`). -/
def sumLen (buf : List (List Char)) : Nat :=
  (buf.map (fun p => p.length)).sum

/-- The relation between consecutive sealed buffers when
`chunk_overlap > 0`: the next buffer starts with the sealed buffer's
last paragraph, followed immediately by the paragraph whose addition
would have pushed the sealed buffer's length over `cs` (the sealing
condition). -/
def c9RelPos (cs : Nat) (b b' : List (List Char)) : Prop :=
  b'.headD [] = b.getLastD [] ∧ 2 ≤ b'.length ∧
    cs < sumLen b + (b'.getD 1 []).length

/-- The relation between consecutive sealed buffers when
`chunk_overlap = 0`: the next buffer starts with the paragraph whose
addition would have overflowed the sealed buffer. -/
def c9RelZero (cs : Nat) (b b' : List (List Char)) : Prop :=
  b' ≠ [] ∧ cs < sumLen b + (b'.headD []).length

/-- Capacity of a sealed buffer: beyond the (possibly overlapping)
first two paragraphs, every paragraph was appended only while the
running length stayed within `cs`. -/
def c9Cap (cs : Nat) (b : List (List Char)) : Prop :=
  ∀ k, 2 ≤ k → k < b.length → sumLen (b.take (k + 1)) ≤ cs

/-- Stored section sub-documents for which the defensive parse of
`retrieve` cannot hit one of its uncaught `TypeError` paths: absent,
falsy, malformed JSON, a JSON object, or any non-truthy value.  (The
uncaught paths need a truthy non-object that survives the membership
test, e.g. a bare integer.) -/
def sectionDataSafe : Option StoredDoc → Prop
  | none => True
  | some .emptyStr => True
  | some .badJson => True
  | some (.val (.jobj _)) => True
  | some (.val j) => jTruthy j = false

/-- The required-field test of `retrieve`'s section reconstruction on
a JSON object (`all(field in section_data for field in [...])`). -/
def fieldsPresent (kvs : List (String × JVal)) : Bool :=
  kvs.any (fun kv => kv.1 = "name") && kvs.any (fun kv => kv.1 = "title") &&
    kvs.any (fun kv => kv.1 = "start_page") &&
    kvs.any (fun kv => kv.1 = "is_subsection")

/-- The paper id a context groups under (defined where `pyGetId`
succeeds). -/
def ctxPid (ctx : RetrievedContext) : JVal :=
  match ctx.paper_metadata with
  | .jobj kvs => (jGet kvs "id").getD .jnull
  | _ => .jnull

/-- The grouping fold of `_build_prompt` with the paper ids resolved
(the pure shadow of `groupGo`, equal to it whenever every id lookup
succeeds). -/
def groupPure (acc : List (JVal × List RetrievedContext))
    (l : List RetrievedContext) : List (JVal × List RetrievedContext) :=
  l.foldl (fun a c => insertGroup a (ctxPid c) c) acc

/-- Frame property of an orchestrator state transition attributable to
the papers of `S`: the in-memory skipped set, the call traces and the
PDF cache are only ever appended to, with every appended entry owned by
a paper of `S`, and the logs and the checkpoint history are append-only. -/
def orchFrame (S : List String) (st st' : OrchState) : Prop :=
  (∃ t, st'.skipped = st.skipped ++ t ∧ ∀ q ∈ t, q ∈ S) ∧
  (∃ t, st'.errorLog = st.errorLog ++ t) ∧
  (∃ t, st'.skipLog = st.skipLog ++ t) ∧
  (∃ t, st'.fetchCalls = st.fetchCalls ++ t ∧ ∀ q ∈ t, q ∈ S) ∧
  (∃ t, st'.processCalls = st.processCalls ++ t ∧ ∀ q ∈ t, q ∈ S) ∧
  (∃ t, st'.cache = st.cache ++ t ∧ ∀ q ∈ t, q ∈ S) ∧
  (∃ t, st'.checkpointWrites = st.checkpointWrites ++ t)

/-! ### Concrete instances for counterexamples and witnesses -/

/-- A ranked hit whose `chunk_metadata` sub-document is malformed
JSON; its other sub-documents are fine. -/
def c2BadHit : StoredHit :=
  ⟨"bad", .badJson, .val (.jobj [("id", .jstr "p1")]), none⟩

/-- A fully well-formed ranked hit. -/
def c2GoodHit : StoredHit :=
  ⟨"good", .val (.jobj [("page_num", .jint 3)]), .val (.jobj [("id", .jstr "p1")]),
    some (.val (.jobj [("name", .jstr "1"), ("title", .jstr "T"),
      ("start_page", .jint 1), ("is_subsection", .jbool false)]))⟩

/-- A ranked hit whose section sub-document is malformed JSON but
whose chunk and paper sub-documents are well-formed. -/
def c2SecBadHit : StoredHit :=
  ⟨"secbad", .val (.jobj [("page_num", .jint 3)]), .val (.jobj [("id", .jstr "p1")]),
    some .badJson⟩

/-- A retrieved context of paper `"p"` with the given section name
(chunk metadata as reconstructed from an empty stored dict, so
`chunk_index` is `null`). -/
def c6Ctx (nm : String) : RetrievedContext :=
  ⟨⟨"x", mergeDefaults []⟩, .jobj [("id", .jstr "p")], some ⟨nm, "T", 1, false, none⟩⟩

/-- An orchestrator environment for the witnesses: fetches succeed,
`process_pdf` raises on paper `"x"` and succeeds elsewhere, RAG
insertion succeeds, nothing is cached on disk. -/
def cEnv : OrchEnv :=
  ⟨fun _ => .fOk, fun p => if p = "x" then .pRaise else .pOk, fun _ => true,
    fun _ => false⟩

/-- The orchestrator's start state: empty logs, traces, cache and
checkpoint history; the skipped set loaded from the skip log is
`skipped0`. -/
def startState (skipped0 : List String) : OrchState :=
  ⟨skipped0, [], [], [], [], [], []⟩

/-! ### Theorems -/

/-- Every chunk built at a seal point carries `chunk_index = none`. -/
theorem mkChunk_chunk_index (text : List Char) :
    (mkChunk text).metadata.chunk_index = none := rfl

/-- C7: FALSE of the code — `_create_chunks` never assigns
`chunk_index`; for every document text and every chunk size/overlap,
every produced chunk's metadata has `chunk_index = None`, not its
emission order. -/
theorem c7_chunk_index_never_assigned (cs co : Nat) (text : String)
    (ch : PaperChunk) (h : ch ∈ createChunks cs co text) :
    ch.metadata.chunk_index = none := by
  rcases List.mem_map.1 h with ⟨b, _, rfl⟩
  rfl

/-- Witness for C7 at a concrete two-paragraph input (which produces
two chunks, both with `chunk_index = None`). -/
theorem c7_chunk_index_never_assigned_witness :
    (mkChunk "aaaa".data).metadata.chunk_index = none ∧
    (mkChunk "bbbb".data).metadata.chunk_index = none :=
  ⟨c7_chunk_index_never_assigned 5 0 "aaaa\n\nbbbb" (mkChunk "aaaa".data) (by decide),
   c7_chunk_index_never_assigned 5 0 "aaaa\n\nbbbb" (mkChunk "bbbb".data) (by decide)⟩

/-- C1: FALSE of the code — on the markdown `"# Intro\n## Methods"`
the depth-2 section is named `"1.1"` (its name contains a dot), yet
`extract_sections` emits it with `is_subsection = False` and
`parent_name = None`: the code sets `is_subsection` only for depth-3
headings (`level > 2`) and a parent only at depth 3, contradicting the
claimed invariant and the model's own field documentation. -/
theorem c1_depth2_section_eval :
    (extractSections initState "# Intro\n## Methods").1 =
      [⟨"1", "Intro", 1, false, none⟩, ⟨"1.1", "Methods", 1, false, none⟩] ∧
    '.' ∈ "1.1".data := by
  constructor
  · rfl
  · decide

/-- The defensive section parse on a stored JSON object: a non-truthy
or incomplete object leaves the section `None`, a complete one goes
through pydantic validation. -/
theorem parseSectionData_jobj (kvs : List (String × JVal)) :
    parseSectionData (some (.val (.jobj kvs))) =
      .ok (if jTruthy (.jobj kvs) && fieldsPresent kvs then validateSection kvs
           else none) := by
  cases hj : jTruthy (JVal.jobj kvs) <;> cases hallF : fieldsPresent kvs <;>
    · have hallU := hallF
      simp only [fieldsPresent] at hallU
      simp [parseSectionData, storedTruthy, pyLoads, jContains,
        Bind.bind, Except.bind, hj, hallF, hallU]

/-- On safe section sub-documents the defensive parse cannot raise. -/
theorem parseSectionData_safe (sd? : Option StoredDoc) (h : sectionDataSafe sd?) :
    ∃ s, parseSectionData sd? = .ok s := by
  match sd? with
  | none => exact ⟨none, rfl⟩
  | some .emptyStr => exact ⟨none, rfl⟩
  | some .badJson => exact ⟨none, rfl⟩
  | some (.val (.jobj kvs)) => exact ⟨_, parseSectionData_jobj kvs⟩
  | some (.val .jnull) => exact ⟨none, rfl⟩
  | some (.val (.jbool b)) =>
    refine ⟨none, ?_⟩
    have hb : b = false := by simpa [sectionDataSafe, jTruthy] using h
    subst hb; rfl
  | some (.val (.jint n)) =>
    refine ⟨none, ?_⟩
    have hn : jTruthy (JVal.jint n) = false := h
    simp [parseSectionData, storedTruthy, pyLoads, hn]
  | some (.val (.jstr s)) =>
    refine ⟨none, ?_⟩
    have hn : jTruthy (JVal.jstr s) = false := h
    simp [parseSectionData, storedTruthy, pyLoads, hn]
  | some (.val (.jarr xs)) =>
    refine ⟨none, ?_⟩
    have hn : jTruthy (JVal.jarr xs) = false := h
    simp [parseSectionData, storedTruthy, pyLoads, hn]

/-- Reconstruction of one hit succeeds when its chunk metadata is a
stored dict, its paper metadata parses and its section data is safe. -/
theorem reconstructOne_ok (hit : StoredHit) (kvs : List (String × JVal)) (j : JVal)
    (hkc : hit.chunk_metadata = .val (.jobj kvs))
    (hpm : hit.paper_metadata = .val j)
    (hs : sectionDataSafe hit.section_data) :
    ∃ s, reconstructOne hit = .ok ⟨⟨hit.text, mergeDefaults kvs⟩, j, s⟩ ∧
      parseSectionData hit.section_data = .ok s := by
  obtain ⟨s, hps⟩ := parseSectionData_safe hit.section_data hs
  refine ⟨s, ?_, hps⟩
  simp only [reconstructOne, hkc, hpm, pyLoads, hps, Bind.bind, Except.bind]

/-- C2, counterexample: a single malformed `chunk_metadata`
sub-document makes the whole reconstruction raise — no context is
returned even for the second, fully well-formed hit (which on its own
reconstructs fine). -/
theorem c2_retrieve_aborts_on_bad_chunk_meta :
    reconstructContexts [c2BadHit, c2GoodHit] = .error () ∧
    reconstructOne c2GoodHit =
      .ok ⟨⟨"good", mergeDefaults [("page_num", .jint 3)]⟩,
        .jobj [("id", .jstr "p1")], some ⟨"1", "T", 1, false, none⟩⟩ :=
  ⟨rfl, rfl⟩

/-- C2, amended: only the section sub-document is deserialized
defensively.  For every hit list whose `chunk_metadata` deserializes
to a dict and whose `paper_metadata` deserializes (the section data
being arbitrary safe values), the retrieval returns one context per
hit, and every hit whose section sub-document is malformed, falsy or
absent yields its context with the section degraded to `None`. -/
theorem c2_section_subdoc_degrades (hits : List StoredHit)
    (hc : ∀ h ∈ hits, ∃ kvs, h.chunk_metadata = .val (.jobj kvs))
    (hp : ∀ h ∈ hits, ∃ j, h.paper_metadata = .val j)
    (hs : ∀ h ∈ hits, sectionDataSafe h.section_data) :
    ∃ ctxs, reconstructContexts hits = .ok ctxs ∧
      List.Forall₂ (fun (h : StoredHit) (c : RetrievedContext) =>
        c.chunk.text = h.text ∧
        ((h.section_data = some .badJson ∨ h.section_data = some .emptyStr ∨
          h.section_data = none) → c.sec = none)) hits ctxs := by
  induction hits with
  | nil => exact ⟨[], rfl, .nil⟩
  | cons h rest ih =>
    obtain ⟨kvs, hkc⟩ := hc h (List.mem_cons_self _ _)
    obtain ⟨j, hpm⟩ := hp h (List.mem_cons_self _ _)
    obtain ⟨s, hone, hps⟩ := reconstructOne_ok h kvs j hkc hpm (hs h (List.mem_cons_self _ _))
    obtain ⟨ctxs, hrest, hrel⟩ := ih
      (fun x hx => hc x (List.mem_cons_of_mem _ hx))
      (fun x hx => hp x (List.mem_cons_of_mem _ hx))
      (fun x hx => hs x (List.mem_cons_of_mem _ hx))
    refine ⟨⟨⟨h.text, mergeDefaults kvs⟩, j, s⟩ :: ctxs, ?_, ?_⟩
    · simp only [reconstructContexts, hone, hrest, Bind.bind, Except.bind]
    · refine .cons ⟨rfl, ?_⟩ hrel
      rintro (hbad | hbad | hbad) <;> rw [hbad] at hps <;>
        exact (Except.ok.inj hps).symm

/-- Witness for the amended C2 at a concrete hit whose section
sub-document is malformed JSON. -/
theorem c2_section_subdoc_degrades_witness :
    ∃ ctxs, reconstructContexts [c2SecBadHit] = .ok ctxs ∧
      List.Forall₂ (fun (h : StoredHit) (c : RetrievedContext) =>
        c.chunk.text = h.text ∧
        ((h.section_data = some .badJson ∨ h.section_data = some .emptyStr ∨
          h.section_data = none) → c.sec = none)) [c2SecBadHit] ctxs :=
  c2_section_subdoc_degrades [c2SecBadHit]
    (by intro h hm; rw [List.mem_singleton] at hm; subst hm; exact ⟨_, rfl⟩)
    (by intro h hm; rw [List.mem_singleton] at hm; subst hm; exact ⟨_, rfl⟩)
    (by intro h hm; rw [List.mem_singleton] at hm; subst hm; trivial)

/-! ### Generic facts about the stable insertion sort -/

theorem orderedInsertLt_perm {α : Type} (lt : α → α → Bool) (x : α) :
    ∀ l : List α, (orderedInsertLt lt x l).Perm (x :: l)
  | [] => .refl _
  | y :: rest => by
    unfold orderedInsertLt
    cases h : lt y x with
    | true =>
      simp only [h, if_true]
      exact ((orderedInsertLt_perm lt x rest).cons y).trans (List.Perm.swap x y rest)
    | false =>
      simp only [h, Bool.false_eq_true, if_false]
      exact .refl _

theorem insertionSortLt_perm {α : Type} (lt : α → α → Bool) :
    ∀ l : List α, (insertionSortLt lt l).Perm l
  | [] => .refl _
  | x :: xs => by
    unfold insertionSortLt
    exact (orderedInsertLt_perm lt x (insertionSortLt lt xs)).trans
      ((insertionSortLt_perm lt xs).cons x)

theorem mem_orderedInsertLt {α : Type} (lt : α → α → Bool) (x y : α) (l : List α) :
    y ∈ orderedInsertLt lt x l ↔ y = x ∨ y ∈ l := by
  rw [(orderedInsertLt_perm lt x l).mem_iff, List.mem_cons]

theorem mem_insertionSortLt {α : Type} (lt : α → α → Bool) (y : α) (l : List α) :
    y ∈ insertionSortLt lt l ↔ y ∈ l := by
  rw [(insertionSortLt_perm lt l).mem_iff]

theorem orderedInsertLt_pairwise {α : Type} (lt : α → α → Bool)
    (hasymm : ∀ a b, lt a b = true → lt b a = false)
    (htransc : ∀ a b c, lt c b = false → lt b a = false → lt c a = false)
    (x : α) :
    ∀ l : List α, l.Pairwise (fun a b => lt b a = false) →
      (orderedInsertLt lt x l).Pairwise (fun a b => lt b a = false)
  | [], _ => List.pairwise_singleton _ x
  | y :: rest, hp => by
    rcases List.pairwise_cons.1 hp with ⟨hy, hrest⟩
    unfold orderedInsertLt
    by_cases h : lt y x = true
    · simp only [h, if_true]
      refine List.pairwise_cons.2 ⟨?_, orderedInsertLt_pairwise lt hasymm htransc x rest hrest⟩
      intro z hz
      rcases (mem_orderedInsertLt lt x z rest).1 hz with rfl | hzr
      · exact hasymm _ _ h
      · exact hy z hzr
    · simp only [h, if_false]
      rw [Bool.not_eq_true] at h
      refine List.pairwise_cons.2 ⟨?_, hp⟩
      intro z hz
      rcases List.mem_cons.1 hz with rfl | hzr
      · exact h
      · exact htransc _ _ _ (hy z hzr) h

theorem insertionSortLt_pairwise {α : Type} (lt : α → α → Bool)
    (hasymm : ∀ a b, lt a b = true → lt b a = false)
    (htransc : ∀ a b c, lt c b = false → lt b a = false → lt c a = false) :
    ∀ l : List α,
      (insertionSortLt lt l).Pairwise (fun a b => lt b a = false)
  | [] => List.Pairwise.nil
  | x :: xs => by
    unfold insertionSortLt
    exact orderedInsertLt_pairwise lt hasymm htransc x _
      (insertionSortLt_pairwise lt hasymm htransc xs)

theorem orderedInsertE_ok {α : Type} (ltE : α → α → Except Unit Bool)
    (ltB : α → α → Bool) (x : α) :
    ∀ l : List α, (∀ y ∈ l, ltE y x = .ok (ltB y x)) →
      orderedInsertE ltE x l = .ok (orderedInsertLt ltB x l)
  | [], _ => rfl
  | y :: rest, h => by
    have hy := h y (List.mem_cons_self _ _)
    have hrest := orderedInsertE_ok ltE ltB x rest
      (fun z hz => h z (List.mem_cons_of_mem _ hz))
    simp only [orderedInsertE, orderedInsertLt, hy, Bind.bind, Except.bind]
    by_cases hb : ltB y x = true
    · simp only [hb, if_true, hrest]
    · simp only [hb, if_false]
      rw [Bool.not_eq_true] at hb
      simp [hb]

theorem insertionSortE_ok {α : Type} (ltE : α → α → Except Unit Bool)
    (ltB : α → α → Bool) :
    ∀ l : List α, (∀ a ∈ l, ∀ b ∈ l, ltE a b = .ok (ltB a b)) →
      insertionSortE ltE l = .ok (insertionSortLt ltB l)
  | [], _ => rfl
  | x :: xs, h => by
    have hxs := insertionSortE_ok ltE ltB xs
      (fun a ha b hb => h a (List.mem_cons_of_mem _ ha) b (List.mem_cons_of_mem _ hb))
    have hins := orderedInsertE_ok ltE ltB x (insertionSortLt ltB xs)
      (fun y hy => h y (List.mem_cons_of_mem _ ((mem_insertionSortLt ltB y xs).1 hy))
        x (List.mem_cons_self _ _))
    simp only [insertionSortE, insertionSortLt, hxs, Bind.bind, Except.bind, hins]

/-! ### Facts about the lexicographic string order -/

theorem strLtB_irrefl : ∀ l : List Char, strLtB l l = false
  | [] => rfl
  | c :: rest => by simp [strLtB, strLtB_irrefl rest]

theorem strLtB_asymm : ∀ a b : List Char, strLtB a b = true → strLtB b a = false
  | [], [], h => by simp [strLtB] at h
  | [], _ :: _, _ => rfl
  | _ :: _, [], h => by simp [strLtB] at h
  | a :: as, b :: bs, h => by
    simp only [strLtB] at h ⊢
    by_cases hab : a < b
    · have hba : ¬ b < a := fun hba => absurd (lt_trans hab hba) (lt_irrefl a)
      simp [hba, hab]
    · by_cases hba : b < a
      · simp [hab, hba] at h
      · simp only [hab, if_false, hba] at h ⊢
        simp [strLtB_asymm as bs h]

theorem strLtB_trans : ∀ a b c : List Char,
    strLtB a b = true → strLtB b c = true → strLtB a c = true
  | [], [], _, hab, _ => by simp [strLtB] at hab
  | [], _ :: _, [], _, hbc => by simp [strLtB] at hbc
  | [], _ :: _, _ :: _, _, _ => rfl
  | _ :: _, [], _, hab, _ => by simp [strLtB] at hab
  | _ :: _, _ :: _, [], _, hbc => by simp [strLtB] at hbc
  | a :: as, b :: bs, c :: cs, hab, hbc => by
    simp only [strLtB] at hab hbc ⊢
    by_cases h1 : a < b
    · by_cases h2 : b < c
      · simp [lt_trans h1 h2]
      · by_cases h3 : c < b
        · simp [h2, h3] at hbc
        · have hbc' : b = c := le_antisymm (not_lt.1 h3) (not_lt.1 h2)
          subst hbc'
          simp [h1]
    · by_cases h1' : b < a
      · simp [h1, h1'] at hab
      · have hab' : a = b := le_antisymm (not_lt.1 h1') (not_lt.1 h1)
        subst hab'
        simp only [lt_irrefl, if_false] at hab
        by_cases h2 : a < c
        · simp [h2]
        · by_cases h3 : c < a
          · simp [h2, h3] at hbc
          · simp only [h2, if_false, h3] at hbc ⊢
            exact strLtB_trans as bs cs hab hbc

theorem strLtB_total : ∀ a b : List Char,
    strLtB a b = false → strLtB b a = false → a = b
  | [], [], _, _ => rfl
  | [], _ :: _, hab, _ => by simp [strLtB] at hab
  | _ :: _, [], _, hba => by simp [strLtB] at hba
  | a :: as, b :: bs, hab, hba => by
    simp only [strLtB] at hab hba
    by_cases h1 : a < b
    · simp [h1] at hab
    · by_cases h2 : b < a
      · simp [h1, h2] at hba
      · have : a = b := le_antisymm (not_lt.1 h2) (not_lt.1 h1)
        subst this
        simp only [lt_irrefl, if_false] at hab hba
        rw [strLtB_total as bs hab hba]

theorem strLtB_transc : ∀ a b c : List Char,
    strLtB c b = false → strLtB b a = false → strLtB c a = false
  | a, b, c, hcb, hba => by
    by_cases hca : strLtB c a = true
    · by_cases hab : strLtB a b = true
      · have := strLtB_trans c a b hca hab
        simp [this] at hcb
      · have hab' : a = b := strLtB_total a b (by simpa using hab) hba
        subst hab'
        simp [hca] at hcb
    · simpa using hca

/-! ### Prompt-ordering lemmas (C6) -/

theorem jeq_jstr_iff (a b : String) : jeq (.jstr a) (.jstr b) = true ↔ a = b := by
  simp [jeq, jNum]

theorem pyGetId_ctxPid (c : RetrievedContext) (v : JVal) (h : pyGetId c = .ok v) :
    ctxPid c = v := by
  cases hm : c.paper_metadata with
  | jobj kvs =>
    simp only [pyGetId, hm] at h
    cases hg : jGet kvs "id" with
    | some w =>
      rw [hg] at h
      injection h with h
      simp [ctxPid, hm, hg, h]
    | none =>
      rw [hg] at h
      exact Except.noConfusion h
  | jnull => simp only [pyGetId, hm] at h; exact Except.noConfusion h
  | jbool b => simp only [pyGetId, hm] at h; exact Except.noConfusion h
  | jint n => simp only [pyGetId, hm] at h; exact Except.noConfusion h
  | jstr s => simp only [pyGetId, hm] at h; exact Except.noConfusion h
  | jarr xs => simp only [pyGetId, hm] at h; exact Except.noConfusion h

theorem groupGo_ok : ∀ (l : List RetrievedContext) (acc),
    (∀ c ∈ l, ∃ v, pyGetId c = .ok v) →
    groupGo acc l = .ok (groupPure acc l)
  | [], _, _ => rfl
  | c :: rest, acc, h => by
    obtain ⟨v, hv⟩ := h c (List.mem_cons_self _ _)
    have hc : ctxPid c = v := pyGetId_ctxPid _ _ hv
    have ih := groupGo_ok rest (insertGroup acc (ctxPid c) c)
      (fun x hx => h x (List.mem_cons_of_mem _ hx))
    simp only [groupGo, hv, Bind.bind, Except.bind, groupPure, List.foldl_cons]
    rw [hc]
    rw [hc] at ih
    exact ih

theorem insertGroup_flatten (pid : JVal) (c : RetrievedContext) :
    ∀ gs : List (JVal × List RetrievedContext),
      ((insertGroup gs pid c).map Prod.snd).flatten.Perm
        ((gs.map Prod.snd).flatten ++ [c])
  | [] => by simp [insertGroup]
  | (k, g) :: rest => by
    unfold insertGroup
    cases h : jeq k pid with
    | true =>
      simp only [if_true, List.map_cons, List.flatten_cons]
      rw [List.append_assoc, List.append_assoc]
      exact List.Perm.append_left g
        (List.perm_append_comm.trans (List.Perm.append_left _ (.refl _)))
    | false =>
      simp only [Bool.false_eq_true, if_false, List.map_cons, List.flatten_cons]
      rw [List.append_assoc]
      exact List.Perm.append_left g (insertGroup_flatten pid c rest)

theorem insertGroup_keys (pid : JVal) (c : RetrievedContext) :
    ∀ gs : List (JVal × List RetrievedContext),
      (insertGroup gs pid c).map Prod.fst = gs.map Prod.fst ∨
      ((insertGroup gs pid c).map Prod.fst = gs.map Prod.fst ++ [pid] ∧
        ∀ k ∈ gs.map Prod.fst, jeq k pid = false)
  | [] => .inr ⟨rfl, by simp⟩
  | (k, g) :: rest => by
    unfold insertGroup
    cases h : jeq k pid with
    | true => exact .inl (by simp)
    | false =>
      rcases insertGroup_keys pid c rest with hl | ⟨hr, hall⟩
      · exact .inl (by simp only [Bool.false_eq_true, if_false, List.map_cons, hl])
      · refine .inr ⟨by simp only [Bool.false_eq_true, if_false, List.map_cons, hr,
          List.cons_append], ?_⟩
        intro k' hk'
        rcases List.mem_cons.1 hk' with rfl | hk'
        · exact h
        · exact hall k' hk'

theorem insertGroup_tag (c : RetrievedContext) (s : String)
    (hpid : ctxPid c = JVal.jstr s) :
    ∀ gs : List (JVal × List RetrievedContext),
      (∀ p ∈ gs, ∃ u, p.1 = JVal.jstr u) →
      (∀ p ∈ gs, ∀ x ∈ p.2, jeq (ctxPid x) p.1 = true) →
      (∀ p ∈ insertGroup gs (ctxPid c) c, ∀ x ∈ p.2, jeq (ctxPid x) p.1 = true) ∧
      (∀ p ∈ insertGroup gs (ctxPid c) c, ∃ u, p.1 = JVal.jstr u)
  | [], _, _ => by
    constructor
    · intro p hp x hx
      simp only [insertGroup, List.mem_singleton] at hp
      subst hp
      simp only [List.mem_singleton] at hx
      subst hx
      rw [hpid]
      exact (jeq_jstr_iff s s).2 rfl
    · intro p hp
      simp only [insertGroup, List.mem_singleton] at hp
      subst hp
      exact ⟨s, hpid⟩
  | (k, g) :: rest, hkeys, htag => by
    unfold insertGroup
    cases h : jeq k (ctxPid c) with
    | true =>
      obtain ⟨u, hu⟩ := hkeys (k, g) (List.mem_cons_self _ _)
      have hu' : k = JVal.jstr u := hu
      have hus : u = s := by
        rw [hu', hpid] at h
        exact (jeq_jstr_iff u s).1 h
      simp only [if_true]
      constructor
      · intro p hp x hx
        rcases List.mem_cons.1 hp with rfl | hp
        · rcases List.mem_append.1 hx with hx | hx
          · exact htag (k, g) (List.mem_cons_self _ _) x hx
          · simp only [List.mem_singleton] at hx
            subst hx
            show jeq (ctxPid x) k = true
            rw [hpid, hu', hus]
            exact (jeq_jstr_iff s s).2 rfl
        · exact htag p (List.mem_cons_of_mem _ hp) x hx
      · intro p hp
        rcases List.mem_cons.1 hp with rfl | hp
        · exact ⟨u, hu'⟩
        · exact hkeys p (List.mem_cons_of_mem _ hp)
    | false =>
      simp only [Bool.false_eq_true, if_false]
      have ih := insertGroup_tag c s hpid rest
        (fun p hp => hkeys p (List.mem_cons_of_mem _ hp))
        (fun p hp => htag p (List.mem_cons_of_mem _ hp))
      constructor
      · intro p hp x hx
        rcases List.mem_cons.1 hp with rfl | hp
        · exact htag (k, g) (List.mem_cons_self _ _) x hx
        · exact ih.1 p hp x hx
      · intro p hp
        rcases List.mem_cons.1 hp with rfl | hp
        · exact hkeys (k, g) (List.mem_cons_self _ _)
        · exact ih.2 p hp

theorem groupPure_inv : ∀ (l : List RetrievedContext) (acc),
    (∀ c ∈ l, ∃ s, ctxPid c = JVal.jstr s) →
    (∀ p ∈ acc, ∃ u, p.1 = JVal.jstr u) →
    ((acc.map Prod.fst).Pairwise (fun a b => jeq a b = false)) →
    (∀ p ∈ acc, ∀ x ∈ p.2, jeq (ctxPid x) p.1 = true) →
    ((groupPure acc l).map Prod.fst).Pairwise (fun a b => jeq a b = false) ∧
    (∀ p ∈ groupPure acc l, ∀ x ∈ p.2, jeq (ctxPid x) p.1 = true) ∧
    ((groupPure acc l).map Prod.snd).flatten.Perm ((acc.map Prod.snd).flatten ++ l)
  | [], acc, _, _, hpw, htag => ⟨hpw, htag, by simp [groupPure]⟩
  | c :: rest, acc, hl, hkeys, hpw, htag => by
    obtain ⟨s, hs⟩ := hl c (List.mem_cons_self _ _)
    have htagk := insertGroup_tag c s hs acc hkeys htag
    have hpw' : ((insertGroup acc (ctxPid c) c).map Prod.fst).Pairwise
        (fun a b => jeq a b = false) := by
      rcases insertGroup_keys (ctxPid c) c acc with he | ⟨he, hall⟩
      · rwa [he]
      · rw [he, List.pairwise_append]
        exact ⟨hpw, List.pairwise_singleton _ _,
          fun a ha b hb => (List.mem_singleton.1 hb) ▸ hall a ha⟩
    have ih := groupPure_inv rest (insertGroup acc (ctxPid c) c)
      (fun x hx => hl x (List.mem_cons_of_mem _ hx)) htagk.2 hpw' htagk.1
    refine ⟨ih.1, ih.2.1, ?_⟩
    show ((groupPure (insertGroup acc (ctxPid c) c) rest).map Prod.snd).flatten.Perm _
    refine ih.2.2.trans
      (((insertGroup_flatten (ctxPid c) c acc).append (List.Perm.refl rest)).trans ?_)
    rw [List.append_assoc, List.singleton_append]

theorem keyLt_null (a b : List Char × JVal) (ha : a.2 = JVal.jnull)
    (hb : b.2 = JVal.jnull) : keyLt a b = .ok (strLtB a.1 b.1) := by
  unfold keyLt
  by_cases h : a.1 = b.1
  · simp [h, ha, hb, jeq, jNum, strLtB_irrefl]
  · simp [h]

theorem sortPaperContexts_ok (g : List RetrievedContext)
    (hcomp : ∀ x ∈ g, (ctxKey x).2 = JVal.jnull) :
    sortPaperContexts g =
      .ok (insertionSortLt (fun a b => strLtB (ctxKey a).1 (ctxKey b).1) g) :=
  insertionSortE_ok _ _ g
    (fun a ha b hb => keyLt_null (ctxKey a) (ctxKey b) (hcomp a ha) (hcomp b hb))

theorem sortGroups_ok : ∀ gs : List (JVal × List RetrievedContext),
    (∀ p ∈ gs, ∀ x ∈ p.2, (ctxKey x).2 = JVal.jnull) →
    ∃ gs', sortGroups gs = .ok gs' ∧
      List.Forall₂ (fun (p q : JVal × List RetrievedContext) =>
        p.1 = q.1 ∧ q.2.Perm p.2 ∧
        q.2.Pairwise (fun a b => strLtB (ctxKey b).1 (ctxKey a).1 = false)) gs gs'
  | [], _ => ⟨[], rfl, .nil⟩
  | (k, g) :: rest, hcomp => by
    have hsort := sortPaperContexts_ok g
      (fun x hx => hcomp (k, g) (List.mem_cons_self _ _) x hx)
    obtain ⟨gs', hrest, hrel⟩ := sortGroups_ok rest
      (fun p hp => hcomp p (List.mem_cons_of_mem _ hp))
    refine ⟨(k, insertionSortLt (fun a b => strLtB (ctxKey a).1 (ctxKey b).1) g) :: gs',
      ?_, ?_⟩
    · simp only [sortGroups, hsort, hrest, Bind.bind, Except.bind]
    · refine .cons ⟨rfl, insertionSortLt_perm _ g, ?_⟩ hrel
      exact insertionSortLt_pairwise (fun a b => strLtB (ctxKey a).1 (ctxKey b).1)
        (fun a b h => strLtB_asymm _ _ h)
        (fun a b c h1 h2 => strLtB_transc _ _ _ h1 h2) g

theorem forall₂_mem_right {α β : Type} {R : α → β → Prop} :
    ∀ {l₁ : List α} {l₂ : List β}, List.Forall₂ R l₁ l₂ →
      ∀ b ∈ l₂, ∃ a ∈ l₁, R a b
  | _, _, .nil, b, hb => absurd hb (List.not_mem_nil b)
  | _, _, .cons h hrest, b, hb => by
    rcases List.mem_cons.1 hb with rfl | hb
    · exact ⟨_, List.mem_cons_self _ _, h⟩
    · obtain ⟨a, ha, hr⟩ := forall₂_mem_right hrest b hb
      exact ⟨a, List.mem_cons_of_mem _ ha, hr⟩

theorem forall₂_map_eq {α β γ : Type} {R : α → β → Prop} (f : α → γ) (g : β → γ)
    (hfg : ∀ a b, R a b → f a = g b) :
    ∀ {l₁ : List α} {l₂ : List β}, List.Forall₂ R l₁ l₂ →
      l₁.map f = l₂.map g
  | _, _, .nil => rfl
  | _, _, .cons h hrest => by
    simp only [List.map_cons, hfg _ _ h, forall₂_map_eq f g hfg hrest]

theorem forall₂_flatten_perm {α β γ : Type} {R : α → β → Prop} (f : α → List γ)
    (g : β → List γ) (hfg : ∀ a b, R a b → (g b).Perm (f a)) :
    ∀ {l₁ : List α} {l₂ : List β}, List.Forall₂ R l₁ l₂ →
      ((l₂.map g).flatten).Perm ((l₁.map f).flatten)
  | _, _, .nil => .refl _
  | _, _, .cons h hrest => by
    simp only [List.map_cons, List.flatten_cons]
    exact (hfg _ _ h).append (forall₂_flatten_perm f g hfg hrest)

/-- C6, counterexample: the per-paper context sort key is the section
name STRING, so with equal (null) chunk indexes the context of the
section named `"10"` is emitted before the one named `"2"` — while the
numeric path order, under which `[2]` precedes `[10]`, says the
opposite. -/
theorem c6_numeric_order_counterexample :
    buildPromptOrder [c6Ctx "2", c6Ctx "10"] =
      .ok [(JVal.jstr "p", [c6Ctx "10", c6Ctx "2"])] ∧
    numPath "2" = [2] ∧ numPath "10" = [10] ∧ pathLtB [2] [10] = true ∧
    (c6Ctx "10").sec = some ⟨"10", "T", 1, false, none⟩ ∧
    (c6Ctx "2").sec = some ⟨"2", "T", 1, false, none⟩ ∧
    jGet (c6Ctx "10").chunk.metadata "chunk_index" = some JVal.jnull ∧
    jGet (c6Ctx "2").chunk.metadata "chunk_index" = some JVal.jnull :=
  ⟨rfl, by decide, by decide, by decide, rfl, rfl, rfl, rfl⟩

/-- C6, amended: prompt assembly groups the contexts by paper id
(distinct keys, every context lands in the group of its own paper id,
nothing lost or duplicated) and orders each paper's contexts by the
LEXICOGRAPHIC STRING comparison of the section name (section-less
contexts carrying the key `"999"`), then `chunk_index`; stated for the
pipeline's real regime, where paper ids are strings and every
reconstructed `chunk_index` is null. -/
theorem c6_string_order (ctxs : List RetrievedContext)
    (hid : ∀ c ∈ ctxs, ∃ sid, pyGetId c = .ok (JVal.jstr sid))
    (hidx : ∀ c ∈ ctxs, (ctxKey c).2 = JVal.jnull) :
    ∃ gs, buildPromptOrder ctxs = .ok gs ∧
      (gs.map Prod.fst).Pairwise (fun a b => jeq a b = false) ∧
      (∀ g ∈ gs, ∀ x ∈ g.2, jeq (ctxPid x) g.1 = true) ∧
      ((gs.map Prod.snd).flatten).Perm ctxs ∧
      ∀ g ∈ gs, g.2.Pairwise
        (fun a b => strLtB (ctxKey b).1 (ctxKey a).1 = false) := by
  have hgo := groupGo_ok ctxs [] (fun c hc => ⟨_, (hid c hc).choose_spec⟩)
  have hl : ∀ c ∈ ctxs, ∃ s, ctxPid c = JVal.jstr s := by
    intro c hc
    obtain ⟨sid, hsid⟩ := hid c hc
    exact ⟨sid, pyGetId_ctxPid c _ hsid⟩
  have hinv := groupPure_inv ctxs [] hl (by simp) (by simp) (by simp)
  have hflat : ((groupPure [] ctxs).map Prod.snd).flatten.Perm ctxs := by
    simpa using hinv.2.2
  have hcomp : ∀ p ∈ groupPure [] ctxs, ∀ x ∈ p.2, (ctxKey x).2 = JVal.jnull := by
    intro p hp x hx
    have hxmem : x ∈ ((groupPure [] ctxs).map Prod.snd).flatten :=
      List.mem_flatten.2 ⟨p.2, List.mem_map.2 ⟨p, hp, rfl⟩, hx⟩
    exact hidx x (hflat.mem_iff.1 hxmem)
  obtain ⟨gs', hsort, hrel⟩ := sortGroups_ok (groupPure [] ctxs) hcomp
  refine ⟨gs', ?_, ?_, ?_, ?_, ?_⟩
  · show (do sortGroups (← groupByPaper ctxs)) = _
    simp only [groupByPaper, hgo, Bind.bind, Except.bind, hsort]
  · have hfst : (groupPure [] ctxs).map Prod.fst = gs'.map Prod.fst :=
      forall₂_map_eq Prod.fst Prod.fst (fun a b hab => hab.1) hrel
    rw [← hfst]
    exact hinv.1
  · intro g hg x hx
    obtain ⟨p, hp, hfst, hperm, _⟩ := forall₂_mem_right hrel g hg
    rw [← hfst]
    exact hinv.2.1 p hp x (hperm.mem_iff.1 hx)
  · exact (forall₂_flatten_perm Prod.snd Prod.snd (fun a b hab => hab.2.1) hrel).trans
      hflat
  · intro g hg
    obtain ⟨p, hp, _, _, hsorted⟩ := forall₂_mem_right hrel g hg
    exact hsorted

/-- Witness for the amended C6 at the two concrete contexts of the
counterexample. -/
theorem c6_string_order_witness :
    ∃ gs, buildPromptOrder [c6Ctx "2", c6Ctx "10"] = .ok gs ∧
      (gs.map Prod.fst).Pairwise (fun a b => jeq a b = false) ∧
      (∀ g ∈ gs, ∀ x ∈ g.2, jeq (ctxPid x) g.1 = true) ∧
      ((gs.map Prod.snd).flatten).Perm [c6Ctx "2", c6Ctx "10"] ∧
      ∀ g ∈ gs, g.2.Pairwise
        (fun a b => strLtB (ctxKey b).1 (ctxKey a).1 = false) :=
  c6_string_order [c6Ctx "2", c6Ctx "10"]
    (by
      intro c hc
      rcases List.mem_cons.1 hc with rfl | hc
      · exact ⟨"p", rfl⟩
      · rcases List.mem_cons.1 hc with rfl | hc
        · exact ⟨"p", rfl⟩
        · exact absurd hc (List.not_mem_nil c))
    (by
      intro c hc
      rcases List.mem_cons.1 hc with rfl | hc
      · rfl
      · rcases List.mem_cons.1 hc with rfl | hc
        · rfl
        · exact absurd hc (List.not_mem_nil c))

/-! ### Section containment lemmas (C10) -/

theorem secLt_false_iff (a b : Section) :
    secLt a b = false ↔ b.start_page ≤ a.start_page := by
  simp [secLt, not_lt]

theorem secLt_asymm (a b : Section) (h : secLt a b = true) : secLt b a = false := by
  simp [secLt] at h ⊢
  omega

theorem secLt_transc (a b c : Section) (h1 : secLt c b = false)
    (h2 : secLt b a = false) : secLt c a = false := by
  simp [secLt] at h1 h2 ⊢
  omega

theorem findScan_some (page : Int) : ∀ (L : List Section) (a : Section),
    ∃ m, findScan page L (some a) = some m ∧ (m = a ∨ m ∈ L)
  | [], a => ⟨a, rfl, .inl rfl⟩
  | s :: rest, a => by
    by_cases h : s.start_page ≤ page
    · obtain ⟨m, hm, hmem⟩ := findScan_some page rest s
      refine ⟨m, ?_, ?_⟩
      · show (if s.start_page ≤ page then findScan page rest (some s) else some a) = _
        rw [if_pos h, hm]
      · rcases hmem with rfl | hmem
        · exact .inr (List.mem_cons_self _ _)
        · exact .inr (List.mem_cons_of_mem _ hmem)
    · refine ⟨a, ?_, .inl rfl⟩
      show (if s.start_page ≤ page then findScan page rest (some s) else some a) = _
      rw [if_neg h]

theorem findScan_insert_out (page : Int) (x : Section) (hx : ¬ x.start_page ≤ page) :
    ∀ (L : List Section) (acc : Option Section),
      findScan page (orderedInsertLt secLt x L) acc = findScan page L acc
  | [], acc => by
    show findScan page [x] acc = acc
    show (if x.start_page ≤ page then findScan page [] (some x) else acc) = acc
    rw [if_neg hx]
  | y :: rest, acc => by
    show findScan page (if secLt y x = true then y :: orderedInsertLt secLt x rest
      else x :: y :: rest) acc = _
    cases hlt : secLt y x with
    | true =>
      simp only [if_true]
      show (if y.start_page ≤ page then
          findScan page (orderedInsertLt secLt x rest) (some y) else acc) =
        (if y.start_page ≤ page then findScan page rest (some y) else acc)
      by_cases hy : y.start_page ≤ page
      · rw [if_pos hy, if_pos hy, findScan_insert_out page x hx rest (some y)]
      · rw [if_neg hy, if_neg hy]
    | false =>
      simp only [Bool.false_eq_true, if_false]
      have hxy : x.start_page ≤ y.start_page := (secLt_false_iff y x).1 hlt
      have hy : ¬ y.start_page ≤ page := fun hy => hx (le_trans hxy hy)
      show (if x.start_page ≤ page then findScan page (y :: rest) (some x) else acc) =
        (if y.start_page ≤ page then findScan page rest (some y) else acc)
      rw [if_neg hx, if_neg hy]

theorem findScan_insert_in (page : Int) (x : Section) (hx : x.start_page ≤ page) :
    ∀ (L : List Section), L.Pairwise (fun a b => secLt b a = false) →
    ∀ (acc : Option Section),
      (acc = none ∨ ∃ a, acc = some a ∧ a.start_page ≤ page ∧
        a.start_page < x.start_page) →
      findScan page (orderedInsertLt secLt x L) acc =
        (match findScan page L acc with
         | none => some x
         | some m => if m.start_page < x.start_page then some x else some m)
  | [], _, acc, hacc => by
    have hL : findScan page (orderedInsertLt secLt x []) acc = some x := by
      show (if x.start_page ≤ page then findScan page [] (some x) else acc) = some x
      rw [if_pos hx]
      rfl
    rw [hL]
    rcases hacc with rfl | ⟨a, rfl, _, halt⟩
    · rfl
    · show some x = (if a.start_page < x.start_page then some x else some a)
      rw [if_pos halt]
  | y :: rest, hsorted, acc, hacc => by
    obtain ⟨hy_all, hrest⟩ := List.pairwise_cons.1 hsorted
    show findScan page (if secLt y x = true then y :: orderedInsertLt secLt x rest
      else x :: y :: rest) acc = _
    cases hlt : secLt y x with
    | true =>
      simp only [if_true]
      have hylt : y.start_page < x.start_page := by simpa [secLt] using hlt
      have hy_page : y.start_page ≤ page := le_trans (le_of_lt hylt) hx
      have ih := findScan_insert_in page x hx rest hrest (some y)
        (.inr ⟨y, rfl, hy_page, hylt⟩)
      show (if y.start_page ≤ page then
          findScan page (orderedInsertLt secLt x rest) (some y) else acc) = _
      rw [if_pos hy_page, ih]
      show _ = (match (if y.start_page ≤ page then findScan page rest (some y)
        else acc) with
         | none => some x
         | some m => if m.start_page < x.start_page then some x else some m)
      rw [if_pos hy_page]
    | false =>
      simp only [Bool.false_eq_true, if_false]
      have hxy : x.start_page ≤ y.start_page := (secLt_false_iff y x).1 hlt
      show (if x.start_page ≤ page then findScan page (y :: rest) (some x) else acc) =
        (match (if y.start_page ≤ page then findScan page rest (some y) else acc) with
         | none => some x
         | some m => if m.start_page < x.start_page then some x else some m)
      rw [if_pos hx]
      by_cases hy : y.start_page ≤ page
      · obtain ⟨m, hm, hmem⟩ := findScan_some page rest y
        have hym : y.start_page ≤ m.start_page := by
          rcases hmem with rfl | hmem
          · exact le_refl _
          · exact (secLt_false_iff m y).1 (hy_all m hmem)
        have hnot : ¬ m.start_page < x.start_page := not_lt.2 (le_trans hxy hym)
        have hL : findScan page (y :: rest) (some x) = some m := by
          show (if y.start_page ≤ page then findScan page rest (some y) else some x) =
            some m
          rw [if_pos hy, hm]
        rw [hL, if_pos hy, hm]
        show some m = (if m.start_page < x.start_page then some x else some m)
        rw [if_neg hnot]
      · have hL : findScan page (y :: rest) (some x) = some x := by
          show (if y.start_page ≤ page then findScan page rest (some y) else some x) =
            some x
          rw [if_neg hy]
        rw [hL, if_neg hy]
        rcases hacc with rfl | ⟨a, rfl, _, halt⟩
        · rfl
        · show some x = (if a.start_page < x.start_page then some x else some a)
          rw [if_pos halt]

theorem claimFold_some : ∀ (ys : List Section) (b : Section),
    ∃ m, ys.foldl claimStep (some b) = some m ∧ b.start_page ≤ m.start_page
  | [], b => ⟨b, rfl, le_refl _⟩
  | y :: ys, b => by
    show ∃ m, ys.foldl claimStep (claimStep (some b) y) = some m ∧ _
    by_cases h : b.start_page ≤ y.start_page
    · obtain ⟨m, hm, hle⟩ := claimFold_some ys y
      exact ⟨m, by rw [show claimStep (some b) y = some y from by
        simp [claimStep, h]]; exact hm, le_trans h hle⟩
    · obtain ⟨m, hm, hle⟩ := claimFold_some ys b
      exact ⟨m, by rw [show claimStep (some b) y = some b from by
        simp [claimStep, h]]; exact hm, hle⟩

theorem claimFold_acc : ∀ (ys : List Section) (a : Section),
    ys.foldl claimStep (some a) =
      (match ys.foldl claimStep none with
       | none => some a
       | some m => if a.start_page ≤ m.start_page then some m else some a)
  | [], a => rfl
  | y :: ys, a => by
    have hnone : (y :: ys).foldl claimStep none = ys.foldl claimStep (some y) := rfl
    show ys.foldl claimStep (claimStep (some a) y) = _
    rw [hnone]
    by_cases h : a.start_page ≤ y.start_page
    · rw [show claimStep (some a) y = some y from by simp [claimStep, h]]
      obtain ⟨m, hm, hym⟩ := claimFold_some ys y
      rw [hm]
      show some m = (if a.start_page ≤ m.start_page then some m else some a)
      rw [if_pos (le_trans h hym)]
    · rw [show claimStep (some a) y = some a from by simp [claimStep, h]]
      rw [claimFold_acc ys a, claimFold_acc ys y]
      cases hys : ys.foldl claimStep none with
      | none =>
        show some a = (if a.start_page ≤ y.start_page then some y else some a)
        rw [if_neg h]
      | some m =>
        show (if a.start_page ≤ m.start_page then some m else some a) =
          (match (if y.start_page ≤ m.start_page then some m else some y :
              Option Section) with
           | none => some a
           | some mm => if a.start_page ≤ mm.start_page then some mm else some a)
        by_cases hym : y.start_page ≤ m.start_page
        · rw [if_pos hym]
        · rw [if_neg hym]
          have hma : ¬ a.start_page ≤ m.start_page := by
            simp only [not_le] at h hym ⊢
            omega
          show (if a.start_page ≤ m.start_page then some m else some a) =
            (if a.start_page ≤ y.start_page then some y else some a)
          rw [if_neg hma, if_neg h]

theorem findScan_sort (page : Int) : ∀ l : List Section,
    findScan page (insertionSortLt secLt l) none = claimSelect l page
  | [] => rfl
  | x :: xs => by
    have hsorted := insertionSortLt_pairwise secLt secLt_asymm secLt_transc xs
    have ih := findScan_sort page xs
    show findScan page (orderedInsertLt secLt x (insertionSortLt secLt xs)) none = _
    by_cases hpx : x.start_page ≤ page
    · rw [findScan_insert_in page x hpx _ hsorted none (.inl rfl), ih]
      unfold claimSelect
      rw [List.filter_cons]
      simp only [hpx, decide_True, if_true, List.foldl_cons]
      rw [show claimStep none x = some x from rfl]
      rw [claimFold_acc]
      cases hxs : (xs.filter (fun s => s.start_page ≤ page)).foldl claimStep none with
      | none => rfl
      | some m =>
        show (if m.start_page < x.start_page then some x else some m) =
          (if x.start_page ≤ m.start_page then some m else some x)
        by_cases hmx : m.start_page < x.start_page
        · rw [if_pos hmx, if_neg (not_le.2 hmx)]
        · rw [if_neg hmx, if_pos (not_lt.1 hmx)]
    · rw [findScan_insert_out page x hpx _ none, ih]
      unfold claimSelect
      rw [List.filter_cons]
      simp only [hpx, decide_False, Bool.false_eq_true, if_false]

/-- C10: the containment rule of `_find_containing_section` — stable
sort by `start_page`, then keep the last section with
`start_page ≤ page`, breaking past the page — computes exactly the
selector the specification words: among the sections with
`start_page ≤ page_num` (none when the list is empty), the one with
maximal `start_page`, the later-occurring section in extraction order
winning ties. -/
theorem c10_containment_rule (chunk : PaperChunk) (sections : List Section)
    (page : Int) (hpg : chunk.metadata.page_num = some page) (h0 : ¬ page = 0) :
    findContainingSection chunk sections = claimSelect sections page := by
  unfold findContainingSection
  rw [hpg]
  show (if page = 0 then none
    else findScan page (insertionSortLt secLt sections) none) = _
  rw [if_neg h0]
  exact findScan_sort page sections

/-- Witness for C10 at a concrete chunk on page 4 and a section list
with a shared `start_page` (the later-occurring section wins). -/
theorem c10_containment_rule_witness :
    findContainingSection ⟨"t", { page_num := some 4 }⟩
        [⟨"1", "a", 1, false, none⟩, ⟨"2", "b", 3, false, none⟩,
         ⟨"2x", "bx", 3, false, none⟩, ⟨"3", "c", 5, false, none⟩] =
      claimSelect
        [⟨"1", "a", 1, false, none⟩, ⟨"2", "b", 3, false, none⟩,
         ⟨"2x", "bx", 3, false, none⟩, ⟨"3", "c", 5, false, none⟩] 4 :=
  c10_containment_rule _ _ 4 rfl (by decide)

/-! ### Chunker lemmas (C9) -/

theorem sumLen_append (a b : List (List Char)) :
    sumLen (a ++ b) = sumLen a + sumLen b := by
  simp [sumLen]

theorem sumLen_singleton (p : List Char) : sumLen [p] = p.length := by
  simp [sumLen]

theorem chunkLoopBufs_ne_nil (cs co : Nat) : ∀ (ps buf : List (List Char)) (len : Nat),
    buf ≠ [] → chunkLoopBufs cs co ps buf len ≠ []
  | [], buf, len, hbuf => by
    have : buf.isEmpty = false := by
      cases buf with
      | nil => exact absurd rfl hbuf
      | cons a l => rfl
    simp [chunkLoopBufs, this]
  | p :: rest, buf, len, hbuf => by
    unfold chunkLoopBufs
    by_cases hcond : (cs < len + p.length && !buf.isEmpty) = true
    · rw [if_pos hcond]
      exact List.cons_ne_nil _ _
    · rw [if_neg hcond]
      exact chunkLoopBufs_ne_nil cs co rest (buf ++ [p]) (len + p.length)
        (by simp)

theorem chunkBufs_mem_ne_nil (cs co : Nat) :
    ∀ (ps buf : List (List Char)) (len : Nat), buf ≠ [] →
      ∀ b ∈ chunkLoopBufs cs co ps buf len, b ≠ []
  | [], buf, len, hbuf, b, hb => by
    have he : buf.isEmpty = false := by
      cases buf with
      | nil => exact absurd rfl hbuf
      | cons a l => rfl
    simp only [chunkLoopBufs, he, Bool.false_eq_true, if_false,
      List.mem_singleton] at hb
    exact hb ▸ hbuf
  | p :: rest, buf, len, hbuf, b, hb => by
    unfold chunkLoopBufs at hb
    by_cases hcond : (cs < len + p.length && !buf.isEmpty) = true
    · rw [if_pos hcond] at hb
      rcases List.mem_cons.1 hb with rfl | hb
      · exact hbuf
      · refine chunkBufs_mem_ne_nil cs co rest _ _ ?_ b hb
        by_cases hco : 0 < co <;> simp [hco]
    · rw [if_neg hcond] at hb
      exact chunkBufs_mem_ne_nil cs co rest (buf ++ [p]) (len + p.length)
        (by simp) b hb

theorem chunkBufs_cap (cs co : Nat) : ∀ (ps buf : List (List Char)) (len : Nat),
    len = sumLen buf → c9Cap cs buf →
    ∀ b ∈ chunkLoopBufs cs co ps buf len, c9Cap cs b
  | [], buf, len, _, hcap, b, hb => by
    unfold chunkLoopBufs at hb
    by_cases he : buf.isEmpty = true
    · rw [if_pos he] at hb
      exact absurd hb (List.not_mem_nil b)
    · rw [if_neg he] at hb
      rw [List.mem_singleton] at hb
      exact hb ▸ hcap
  | p :: rest, buf, len, hlen, hcap, b, hb => by
    unfold chunkLoopBufs at hb
    by_cases hcond : (cs < len + p.length && !buf.isEmpty) = true
    · rw [if_pos hcond] at hb
      rcases List.mem_cons.1 hb with rfl | hb
      · exact hcap
      · refine chunkBufs_cap cs co rest _ _ ?_ ?_ b hb
        · by_cases hco : 0 < co <;> simp [hco, sumLen]
        · intro k hk2 hklt
          exfalso
          by_cases hco : 0 < co
          · have hk : k < 2 := by simpa [hco] using hklt
            omega
          · have hk : k < 1 := by simpa [hco] using hklt
            omega
    · rw [if_neg hcond] at hb
      have hle : ¬ cs < len + p.length ∨ buf = [] := by
        rcases Bool.not_eq_true _ ▸ hcond with h
        by_cases h1 : cs < len + p.length
        · right
          by_cases h2 : buf = []
          · exact h2
          · exfalso
            apply hcond
            have : buf.isEmpty = false := by
              cases buf with
              | nil => exact absurd rfl h2
              | cons a l => rfl
            simp [h1, this]
        · exact .inl h1
      refine chunkBufs_cap cs co rest (buf ++ [p]) (len + p.length)
        (by rw [hlen, sumLen_append, sumLen_singleton]) ?_ b hb
      intro k hk2 hklt
      simp only [List.length_append, List.length_singleton] at hklt
      by_cases hkb : k < buf.length
      · rw [List.take_append_of_le_length (by omega)]
        exact hcap k hk2 hkb
      · have hkeq : k = buf.length := by omega
        rcases hle with hle | hle
        · rw [List.take_of_length_le (by simp [hkeq])]
          rw [sumLen_append, sumLen_singleton, ← hlen]
          omega
        · subst hle
          simp at hkeq
          omega

theorem chunkBufs_pos (cs co : Nat) (hco : 0 < co) :
    ∀ (ps buf : List (List Char)) (len : Nat), buf ≠ [] → len = sumLen buf →
      (∃ ext, (chunkLoopBufs cs co ps buf len).headD [] = buf ++ ext) ∧
      (chunkLoopBufs cs co ps buf len).Chain' (c9RelPos cs)
  | [], buf, len, hbuf, _ => by
    have he : buf.isEmpty = false := by
      cases buf with
      | nil => exact absurd rfl hbuf
      | cons a l => rfl
    simp only [chunkLoopBufs, he, Bool.false_eq_true, if_false]
    exact ⟨⟨[], by simp⟩, List.chain'_singleton buf⟩
  | p :: rest, buf, len, hbuf, hlen => by
    unfold chunkLoopBufs
    by_cases hseal : cs < len + p.length
    · have he : buf.isEmpty = false := by
        cases buf with
        | nil => exact absurd rfl hbuf
        | cons a l => rfl
      have hcond : (cs < len + p.length && !buf.isEmpty) = true := by
        simp [hseal, he]
      rw [if_pos hcond]
      simp only [hco, if_true]
      have ih := chunkBufs_pos cs co hco rest ([buf.getLastD []] ++ [p])
        ((buf.getLastD []).length + p.length) (by simp)
        (by rw [sumLen_append, sumLen_singleton, sumLen_singleton])
      refine ⟨⟨[], by simp⟩, ?_⟩
      rcases hout : chunkLoopBufs cs co rest ([buf.getLastD []] ++ [p])
          ((buf.getLastD []).length + p.length) with _ | ⟨h', t'⟩
      · exact List.chain'_singleton buf
      · rw [List.chain'_cons]
        obtain ⟨⟨ext, hext⟩, hchain⟩ := ih
        rw [hout] at hext hchain
        have hh' : h' = buf.getLastD [] :: p :: ext := by
          simpa using hext
        refine ⟨?_, hchain⟩
        refine ⟨by rw [hh']; rfl, by rw [hh']; simp, ?_⟩
        rw [hh']
        show cs < sumLen buf + p.length
        rw [← hlen]
        exact hseal
    · have hcond : ¬ (cs < len + p.length && !buf.isEmpty) = true := by
        simp [hseal]
      rw [if_neg hcond]
      have ih := chunkBufs_pos cs co hco rest (buf ++ [p]) (len + p.length)
        (by simp) (by rw [hlen, sumLen_append, sumLen_singleton])
      obtain ⟨⟨ext, hext⟩, hchain⟩ := ih
      exact ⟨⟨[p] ++ ext, by rw [hext, List.append_assoc]⟩, hchain⟩

theorem chunkBufs_head (cs co : Nat) :
    ∀ (ps buf : List (List Char)) (len : Nat), buf ≠ [] →
      ∃ ext, (chunkLoopBufs cs co ps buf len).headD [] = buf ++ ext
  | [], buf, len, hbuf => by
    have he : buf.isEmpty = false := by
      cases buf with
      | nil => exact absurd rfl hbuf
      | cons a l => rfl
    simp only [chunkLoopBufs, he, Bool.false_eq_true, if_false]
    exact ⟨[], by simp⟩
  | p :: rest, buf, len, hbuf => by
    unfold chunkLoopBufs
    by_cases hcond : (cs < len + p.length && !buf.isEmpty) = true
    · rw [if_pos hcond]
      exact ⟨[], by simp⟩
    · rw [if_neg hcond]
      obtain ⟨ext, hext⟩ := chunkBufs_head cs co rest (buf ++ [p]) (len + p.length)
        (by simp)
      exact ⟨[p] ++ ext, by rw [hext, List.append_assoc]⟩

theorem chunkBufs_zero (cs : Nat) :
    ∀ (ps buf : List (List Char)) (len : Nat), buf ≠ [] → len = sumLen buf →
      (chunkLoopBufs cs 0 ps buf len).Chain' (c9RelZero cs)
  | [], buf, len, hbuf, _ => by
    have he : buf.isEmpty = false := by
      cases buf with
      | nil => exact absurd rfl hbuf
      | cons a l => rfl
    simp only [chunkLoopBufs, he, Bool.false_eq_true, if_false]
    exact List.chain'_singleton buf
  | p :: rest, buf, len, hbuf, hlen => by
    unfold chunkLoopBufs
    by_cases hseal : cs < len + p.length
    · have he : buf.isEmpty = false := by
        cases buf with
        | nil => exact absurd rfl hbuf
        | cons a l => rfl
      have hcond : (cs < len + p.length && !buf.isEmpty) = true := by
        simp [hseal, he]
      rw [if_pos hcond]
      simp only [lt_irrefl, if_false]
      have ihchain := chunkBufs_zero cs rest ([] ++ [p]) (0 + p.length)
        (by simp) (by simp [sumLen_singleton])
      obtain ⟨ext, hext⟩ := chunkBufs_head cs 0 rest ([] ++ [p]) (0 + p.length)
        (by simp)
      rcases hout : chunkLoopBufs cs 0 rest ([] ++ [p]) (0 + p.length)
          with _ | ⟨h', t'⟩
      · exact List.chain'_singleton buf
      · rw [List.chain'_cons]
        rw [hout] at ihchain hext
        have hh' : h' = p :: ext := by simpa using hext
        refine ⟨⟨by rw [hh']; exact List.cons_ne_nil _ _, ?_⟩, ihchain⟩
        rw [hh']
        show cs < sumLen buf + p.length
        rw [← hlen]
        exact hseal
    · have hcond : ¬ (cs < len + p.length && !buf.isEmpty) = true := by
        simp [hseal]
      rw [if_neg hcond]
      exact chunkBufs_zero cs rest (buf ++ [p]) (len + p.length)
        (by simp) (by rw [hlen, sumLen_append, sumLen_singleton])

theorem chunkBufs_flatten_zero (cs : Nat) :
    ∀ (ps buf : List (List Char)) (len : Nat),
      (chunkLoopBufs cs 0 ps buf len).flatten = buf ++ ps
  | [], buf, len => by
    unfold chunkLoopBufs
    by_cases he : buf.isEmpty = true
    · rw [if_pos he, List.isEmpty_iff.1 he]
      rfl
    · rw [if_neg he]
      simp
  | p :: rest, buf, len => by
    unfold chunkLoopBufs
    by_cases hcond : (cs < len + p.length && !buf.isEmpty) = true
    · rw [if_pos hcond]
      simp only [lt_irrefl, if_false, List.flatten_cons, List.nil_append]
      rw [chunkBufs_flatten_zero cs rest [p] (0 + p.length)]
      rfl
    · rw [if_neg hcond]
      rw [chunkBufs_flatten_zero cs rest (buf ++ [p]) (len + p.length)]
      simp

theorem createChunksBufs_eq (cs co : Nat) (text : String) :
    createChunksBufs cs co text =
      (match paragraphsOf text with
       | [] => []
       | p :: rest => chunkLoopBufs cs co rest [p] p.length) := by
  unfold createChunksBufs
  cases hps : paragraphsOf text with
  | nil => rfl
  | cons p rest =>
    show chunkLoopBufs cs co (p :: rest) [] 0 = chunkLoopBufs cs co rest [p] p.length
    have hcond : ¬ (cs < 0 + p.length && !List.isEmpty ([] : List (List Char))) =
        true := by simp
    conv_lhs => rw [chunkLoopBufs]
    rw [if_neg hcond]
    simp

/-- C9: the chunker's paragraph-buffer behaviour, as the claim words
it.  (1) A text whose only nonempty stripped paragraph is `p` yields
exactly one chunk containing `p` whole, overlong or not.  (2) With
`chunk_overlap > 0`, each sealed buffer is followed by one starting
with its last paragraph, immediately followed by the paragraph whose
addition would have pushed the buffer's character length over
`chunk_size` — the sealing condition.  (3) With `chunk_overlap = 0`
the successor starts with the overflowing paragraph and the buffers
concatenate back to the paragraph stream (next buffer starts empty,
final nonempty buffer emitted, no duplication).  (4) Every emitted
buffer is nonempty and respects the capacity bound beyond its first
two paragraphs (no premature seal).  (5) Chunks are produced iff the
text has a nonempty paragraph. -/
theorem c9_chunker_behaviour (cs co : Nat) (text : String) :
    (∀ p, paragraphsOf text = [p] → createChunks cs co text = [mkChunk p]) ∧
    (0 < co → (createChunksBufs cs co text).Chain' (c9RelPos cs)) ∧
    (co = 0 → (createChunksBufs cs co text).Chain' (c9RelZero cs) ∧
      (createChunksBufs cs co text).flatten = paragraphsOf text) ∧
    (∀ b ∈ createChunksBufs cs co text, c9Cap cs b ∧ b ≠ []) ∧
    (createChunksBufs cs co text = [] ↔ paragraphsOf text = []) := by
  have heq := createChunksBufs_eq cs co text
  refine ⟨?_, ?_, ?_, ?_, ?_⟩
  · intro p hp
    unfold createChunks
    rw [heq, hp]
    show (chunkLoopBufs cs co [] [p] p.length).map (fun b => mkChunk (joinNN b)) = _
    unfold chunkLoopBufs
    simp [joinNN]
  · intro hco
    rw [heq]
    cases hps : paragraphsOf text with
    | nil => exact List.chain'_nil
    | cons p rest =>
      exact (chunkBufs_pos cs co hco rest [p] p.length (List.cons_ne_nil _ _)
        (sumLen_singleton p).symm).2
  · intro h0
    subst h0
    constructor
    · rw [heq]
      cases hps : paragraphsOf text with
      | nil => exact List.chain'_nil
      | cons p rest =>
        exact chunkBufs_zero cs rest [p] p.length (List.cons_ne_nil _ _)
          (sumLen_singleton p).symm
    · rw [heq]
      cases hps : paragraphsOf text with
      | nil => rfl
      | cons p rest =>
        rw [chunkBufs_flatten_zero cs rest [p] p.length]
        rfl
  · intro b hb
    rw [heq] at hb
    cases hps : paragraphsOf text with
    | nil => rw [hps] at hb; exact absurd hb (List.not_mem_nil b)
    | cons p rest =>
      rw [hps] at hb
      refine ⟨chunkBufs_cap cs co rest [p] p.length (sumLen_singleton p).symm
        ?_ b hb, chunkBufs_mem_ne_nil cs co rest [p] p.length
        (List.cons_ne_nil _ _) b hb⟩
      intro k hk2 hklt
      exfalso
      simp only [List.length_singleton] at hklt
      omega
  · rw [heq]
    cases hps : paragraphsOf text with
    | nil => exact ⟨fun _ => rfl, fun _ => rfl⟩
    | cons p rest =>
      constructor
      · intro h
        exact absurd h (chunkLoopBufs_ne_nil cs co rest [p] p.length
          (List.cons_ne_nil _ _))
      · intro h
        exact absurd h (List.cons_ne_nil _ _)

/-- Witness for C9: the oversized single paragraph yields one whole
chunk, and the chain/flatten conclusions hold at a concrete
three-paragraph text with `chunk_size = 5`. -/
theorem c9_chunker_behaviour_witness :
    createChunks 5 0 "averylongsingleparagraph" =
      [mkChunk "averylongsingleparagraph".data] ∧
    (createChunksBufs 5 2 "aaaa\n\nbb\n\ncccc").Chain' (c9RelPos 5) ∧
    (createChunksBufs 5 0 "aaaa\n\nbb\n\ncccc").flatten =
      paragraphsOf "aaaa\n\nbb\n\ncccc" :=
  ⟨(c9_chunker_behaviour 5 0 "averylongsingleparagraph").1
      "averylongsingleparagraph".data (by decide),
   (c9_chunker_behaviour 5 2 "aaaa\n\nbb\n\ncccc").2.1 (by decide),
   ((c9_chunker_behaviour 5 0 "aaaa\n\nbb\n\ncccc").2.2.1 rfl).2⟩

/-! ### Decimal representation lemmas (C8, C4) -/

theorem decCharsGo_fuel (n : Nat) : ∀ f1 f2, n < f1 → n < f2 →
    decCharsGo f1 n = decCharsGo f2 n := by
  induction n using Nat.strong_induction_on with
  | _ n ih =>
    intro f1 f2 h1 h2
    match f1, f2 with
    | g1 + 1, g2 + 1 =>
      by_cases h10 : n < 10
      · simp [decCharsGo, h10]
      · have hdiv : n / 10 < n := Nat.div_lt_self (by omega) (by omega)
        simp only [decCharsGo, h10, if_false]
        rw [ih (n / 10) hdiv g1 g2 (by omega) (by omega)]

theorem decChars_go_eq (n fuel : Nat) (h : n < fuel) :
    decCharsGo fuel n = decChars n :=
  decCharsGo_fuel n fuel (n + 1) h (Nat.lt_succ_self n)

theorem digitChar_digit (n : Nat) (h : n < 10) : isDigitCh (digitChar n) = true := by
  interval_cases n <;> decide

theorem digitVal_digitChar (n : Nat) (h : n < 10) : digitVal (digitChar n) = n := by
  interval_cases n <;> decide

theorem decChars_digits (n : Nat) : ∀ c ∈ decChars n, isDigitCh c = true := by
  induction n using Nat.strong_induction_on with
  | _ n ih =>
    intro c hc
    by_cases h10 : n < 10
    · simp only [decChars, decCharsGo, h10, if_true, List.mem_singleton] at hc
      exact hc ▸ digitChar_digit n h10
    · have hdiv : n / 10 < n := Nat.div_lt_self (by omega) (by omega)
      simp only [decChars, decCharsGo, h10, if_false] at hc
      rw [decChars_go_eq (n / 10) n hdiv] at hc
      rcases List.mem_append.1 hc with hc | hc
      · exact ih (n / 10) hdiv c hc
      · rw [List.mem_singleton] at hc
        exact hc ▸ digitChar_digit (n % 10) (Nat.mod_lt n (by omega))

theorem decChars_ne_nil (n : Nat) : decChars n ≠ [] := by
  by_cases h10 : n < 10
  · simp [decChars, decCharsGo, h10]
  · have hdiv : n / 10 < n := Nat.div_lt_self (by omega) (by omega)
    simp [decChars, decCharsGo, h10]

theorem decValGo_append (xs ys : List Char) : ∀ acc,
    decValGo (xs ++ ys) acc = decValGo ys (decValGo xs acc) := by
  induction xs with
  | nil => intro acc; rfl
  | cons c rest ih => intro acc; exact ih (acc * 10 + digitVal c)

theorem decVal_decChars (n : Nat) : ∀ acc, decValGo (decChars n) acc =
    acc * 10 ^ (decChars n).length + n := by
  induction n using Nat.strong_induction_on with
  | _ n ih =>
    intro acc
    by_cases h10 : n < 10
    · simp only [decChars, decCharsGo, h10, if_true, decValGo]
      rw [digitVal_digitChar n h10]
      simp [pow_one]
    · have hdiv : n / 10 < n := Nat.div_lt_self (by omega) (by omega)
      simp only [decChars, decCharsGo, h10, if_false]
      rw [decChars_go_eq (n / 10) n hdiv]
      rw [decValGo_append, ih (n / 10) hdiv acc]
      simp only [decValGo]
      rw [digitVal_digitChar (n % 10) (Nat.mod_lt n (by omega))]
      rw [List.length_append, List.length_singleton, pow_succ]
      have := Nat.div_add_mod n 10
      ring_nf
      omega

theorem decChars_inj (a b : Nat) (h : decChars a = decChars b) : a = b := by
  have ha := decVal_decChars a 0
  have hb := decVal_decChars b 0
  rw [h] at ha
  simp only [Nat.zero_mul, Nat.zero_add] at ha hb
  omega

theorem parseDigitsGo_digits : ∀ (xs : List Char) (acc : Nat),
    (∀ c ∈ xs, isDigitCh c = true) →
    parseDigitsGo xs acc = some (decValGo xs acc)
  | [], _, _ => rfl
  | c :: rest, acc, h => by
    have hc := h c (List.mem_cons_self _ _)
    have hstep : parseDigitsGo (c :: rest) acc =
        parseDigitsGo rest (acc * 10 + digitVal c) := by
      conv_lhs => rw [parseDigitsGo.eq_def]
      simp [hc]
    rw [hstep,
      parseDigitsGo_digits rest _ (fun x hx => h x (List.mem_cons_of_mem _ hx))]
    rfl

theorem parseUInt_decChars (n : Nat) : parseUInt (decChars n) = some n := by
  rcases hd : decChars n with _ | ⟨c, rest⟩
  · exact absurd hd (decChars_ne_nil n)
  · have hdig : ∀ x ∈ decChars n, isDigitCh x = true := decChars_digits n
    have hc : isDigitCh c = true := hdig c (hd ▸ List.mem_cons_self _ _)
    show (if isDigitCh c = true then parseDigitsGo rest (digitVal c) else none) = _
    rw [if_pos hc]
    rw [parseDigitsGo_digits rest (digitVal c)
      (fun x hx => hdig x (hd ▸ List.mem_cons_of_mem _ hx))]
    have : decValGo (decChars n) 0 = n := by
      have := decVal_decChars n 0
      simpa using this
    rw [hd] at this
    simp only [decValGo, Nat.zero_mul, Nat.zero_add] at this
    rw [this]

theorem decChars_no_dot (n : Nat) : '.' ∉ decChars n := by
  intro hmem
  have := decChars_digits n '.' hmem
  simp [isDigitCh] at this

theorem splitOnChar_no_sep (sep : Char) : ∀ l : List Char,
    (∀ c ∈ l, ¬ c = sep) → splitOnChar sep l = [l]
  | [], _ => rfl
  | c :: rest, h => by
    have hc : ¬ c = sep := h c (List.mem_cons_self _ _)
    simp only [splitOnChar, hc, if_false]
    rw [splitOnChar_no_sep sep rest (fun x hx => h x (List.mem_cons_of_mem _ hx))]

theorem splitOnChar_append (sep : Char) : ∀ (l₁ l₂ : List Char),
    (∀ c ∈ l₁, ¬ c = sep) →
    splitOnChar sep (l₁ ++ sep :: l₂) = l₁ :: splitOnChar sep l₂
  | [], l₂, _ => by simp [splitOnChar]
  | c :: l₁, l₂, h => by
    have hc : ¬ c = sep := h c (List.mem_cons_self _ _)
    simp only [List.cons_append, splitOnChar, hc, if_false, List.append_eq]
    rw [splitOnChar_append sep l₁ l₂ (fun x hx => h x (List.mem_cons_of_mem _ hx))]

theorem numPath_one (a : Nat) : numPath ⟨decChars a⟩ = [a] := by
  unfold numPath
  show ((splitOnChar '.' (decChars a)).map fun p => (parseUInt p).getD 0) = [a]
  rw [splitOnChar_no_sep '.' (decChars a)
    (fun c hc hceq => decChars_no_dot a (hceq ▸ hc))]
  simp [parseUInt_decChars]

theorem numPath_two (a b : Nat) :
    numPath ⟨decChars a ++ '.' :: decChars b⟩ = [a, b] := by
  unfold numPath
  show ((splitOnChar '.' (decChars a ++ '.' :: decChars b)).map
    fun p => (parseUInt p).getD 0) = [a, b]
  rw [splitOnChar_append '.' (decChars a) (decChars b)
    (fun c hc hceq => decChars_no_dot a (hceq ▸ hc))]
  rw [splitOnChar_no_sep '.' (decChars b)
    (fun c hc hceq => decChars_no_dot b (hceq ▸ hc))]
  simp [parseUInt_decChars]

theorem numPath_three (a b c : Nat) :
    numPath ⟨decChars a ++ '.' :: decChars b ++ '.' :: decChars c⟩ = [a, b, c] := by
  unfold numPath
  show ((splitOnChar '.' (decChars a ++ '.' :: decChars b ++ '.' :: decChars c)).map
    fun p => (parseUInt p).getD 0) = [a, b, c]
  rw [show (decChars a ++ '.' :: decChars b ++ '.' :: decChars c) =
    decChars a ++ '.' :: (decChars b ++ '.' :: decChars c) from by
      rw [List.append_assoc, List.cons_append]]
  rw [splitOnChar_append '.' (decChars a) (decChars b ++ '.' :: decChars c)
    (fun x hx hxeq => decChars_no_dot a (hxeq ▸ hx))]
  rw [splitOnChar_append '.' (decChars b) (decChars c)
    (fun x hx hxeq => decChars_no_dot b (hxeq ▸ hx))]
  rw [splitOnChar_no_sep '.' (decChars c)
    (fun x hx hxeq => decChars_no_dot c (hxeq ▸ hx))]
  simp [parseUInt_decChars]

/-! ### Numeric path order facts -/

theorem pathLtB_nil_cons (x : Nat) (q : List Nat) : pathLtB [] (x :: q) = true := rfl

theorem pathLtB_cons_lt {a b : Nat} (h : a < b) (p q : List Nat) :
    pathLtB (a :: p) (b :: q) = true := by
  simp only [pathLtB]
  rw [if_pos h]

theorem pathLtB_cons_eq (a : Nat) (p q : List Nat) :
    pathLtB (a :: p) (a :: q) = pathLtB p q := by
  simp [pathLtB]

theorem pathLtB_irrefl : ∀ p : List Nat, pathLtB p p = false
  | [] => rfl
  | a :: p => by rw [pathLtB_cons_eq]; exact pathLtB_irrefl p

theorem pathLtB_trans : ∀ p q r : List Nat,
    pathLtB p q = true → pathLtB q r = true → pathLtB p r = true
  | [], [], _, hpq, _ => by simp [pathLtB] at hpq
  | [], _ :: _, [], _, hqr => by simp [pathLtB] at hqr
  | [], _ :: _, _ :: _, _, _ => rfl
  | _ :: _, [], _, hpq, _ => by simp [pathLtB] at hpq
  | _ :: _, _ :: _, [], _, hqr => by simp [pathLtB] at hqr
  | a :: p, b :: q, c :: r, hpq, hqr => by
    simp only [pathLtB] at hpq hqr ⊢
    by_cases h1 : a < b
    · by_cases h2 : b < c
      · rw [if_pos (lt_trans h1 h2)]
      · by_cases h3 : c < b
        · rw [if_neg h2, if_pos h3] at hqr
          exact absurd hqr (by simp)
        · have hbc : b = c := le_antisymm (not_lt.1 h3) (not_lt.1 h2)
          subst hbc
          rw [if_pos h1]
    · by_cases h1' : b < a
      · rw [if_neg h1, if_pos h1'] at hpq
        exact absurd hpq (by simp)
      · have hab : a = b := le_antisymm (not_lt.1 h1') (not_lt.1 h1)
        subst hab
        rw [if_neg (lt_irrefl a), if_neg (lt_irrefl a)] at hpq
        by_cases h2 : a < c
        · rw [if_pos h2]
        · by_cases h3 : c < a
          · rw [if_neg h2, if_pos h3] at hqr
            exact absurd hqr (by simp)
          · rw [if_neg h2, if_neg h3] at hqr ⊢
            exact pathLtB_trans p q r hpq hqr

theorem chain'_pairwise {α : Type} {R : α → α → Prop}
    (htrans : ∀ a b c, R a b → R b c → R a c) :
    ∀ l : List α, l.Chain' R → l.Pairwise R
  | [], _ => .nil
  | [_], _ => List.pairwise_singleton _ _
  | a :: b :: t, h => by
    rw [List.chain'_cons] at h
    have hp := chain'_pairwise htrans (b :: t) h.2
    refine List.pairwise_cons.2 ⟨?_, hp⟩
    intro z hz
    rcases List.mem_cons.1 hz with rfl | hz
    · exact h.1
    · exact htrans a b z h.1 ((List.pairwise_cons.1 hp).1 z hz)

/-! ### Extractor loop invariants (C8, C4) -/

theorem extractLoop_append : ∀ (lines : List (List Char)) (st : ExtractorState)
    (page : Int) (acc : List Section),
    extractLoop acc st page lines =
      (acc ++ (extractLoop [] st page lines).1, (extractLoop [] st page lines).2)
  | [], st, page, acc => by simp [extractLoop]
  | line :: rest, st, page, acc => by
    show extractLoop (acc ++ (processLine st page line).2.2.toList)
        (processLine st page line).1 (processLine st page line).2.1 rest = _
    rw [extractLoop_append rest (processLine st page line).1
      (processLine st page line).2.1 (acc ++ (processLine st page line).2.2.toList)]
    conv_rhs =>
      rw [show extractLoop [] st page (line :: rest) =
        extractLoop ([] ++ (processLine st page line).2.2.toList)
          (processLine st page line).1 (processLine st page line).2.1 rest from rfl]
      rw [extractLoop_append rest (processLine st page line).1
        (processLine st page line).2.1 ([] ++ (processLine st page line).2.2.toList)]
    simp

theorem mem_of_getLast_opt {α : Type} {l : List α} {x : α} (h : x ∈ l.getLast?) :
    x ∈ l := by
  obtain ⟨hne, rfl⟩ := List.mem_getLast?_eq_getLast h
  exact List.getLast_mem hne

theorem extractLoop_cons (line : List Char) (rest : List (List Char))
    (st : ExtractorState) (page : Int) (acc : List Section) :
    extractLoop acc st page (line :: rest) =
      extractLoop (acc ++ (processLine st page line).2.2.toList)
        (processLine st page line).1 (processLine st page line).2.1 rest := rfl

theorem processLine_marker (st : ExtractorState) (page : Int) (line : List Char)
    (p' : Int) (h : classifyLine line = .marker p') :
    processLine st page line = (st, p', none) := by
  simp [processLine, h]

theorem processLine_plain (st : ExtractorState) (page : Int) (line : List Char)
    (h : classifyLine line = .plain) :
    processLine st page line = (st, page, none) := by
  simp [processLine, h]

theorem processLine_h1 (st : ExtractorState) (page : Int) (line : List Char)
    (title : List Char) (h : classifyLine line = .heading 1 title) :
    processLine st page line =
      ({ st with c1 := st.c1 + 1, c2 := 0, c3 := 0,
                 l1 := some ⟨decChars (st.c1 + 1)⟩ }, page,
        some ⟨⟨decChars (st.c1 + 1)⟩, ⟨title⟩, page, false, none⟩) := by
  simp [processLine, h]

theorem processLine_h2 (st : ExtractorState) (page : Int) (line : List Char)
    (title : List Char) (h : classifyLine line = .heading 2 title) :
    processLine st page line =
      ({ st with c2 := st.c2 + 1, c3 := 0,
                 l2 := some ⟨decChars st.c1 ++ '.' :: decChars (st.c2 + 1)⟩ }, page,
        some ⟨⟨decChars st.c1 ++ '.' :: decChars (st.c2 + 1)⟩, ⟨title⟩, page,
          false, none⟩) := by
  simp [processLine, h]

theorem processLine_hother (st : ExtractorState) (page : Int) (line : List Char)
    (level : Nat) (title : List Char) (h : classifyLine line = .heading level title)
    (h1 : level ≠ 1) (h2 : level ≠ 2) :
    processLine st page line =
      ({ st with c3 := st.c3 + 1,
                 l3 := some ⟨decChars st.c1 ++ '.' :: decChars st.c2 ++
                   '.' :: decChars (st.c3 + 1)⟩ }, page,
        some ⟨⟨decChars st.c1 ++ '.' :: decChars st.c2 ++
          '.' :: decChars (st.c3 + 1)⟩, ⟨title⟩, page, true, st.l2⟩) := by
  rcases level with _ | _ | _ | n
  · simp [processLine, h]
  · exact absurd rfl h1
  · exact absurd rfl h2
  · simp [processLine, h]

theorem extractLoop_chain : ∀ (lines : List (List Char)) (st : ExtractorState)
    (page : Int) (acc : List Section),
    acc.Chain' (fun a b => pathLtB (numPath a.name) (numPath b.name) = true) →
    (∀ s ∈ acc,
      pathLtB (numPath s.name) [st.c1 + 1] = true ∧
      pathLtB (numPath s.name) [st.c1, st.c2 + 1] = true ∧
      pathLtB (numPath s.name) [st.c1, st.c2, st.c3 + 1] = true) →
    (extractLoop acc st page lines).1.Chain'
      (fun a b => pathLtB (numPath a.name) (numPath b.name) = true)
  | [], _, _, _, hchain, _ => hchain
  | line :: rest, st, page, acc, hchain, hbound => by
    rw [extractLoop_cons]
    cases hcl : classifyLine line with
    | marker p' =>
      rw [processLine_marker st page line p' hcl]
      simp only [Option.toList_none, List.append_nil]
      exact extractLoop_chain rest st p' acc hchain hbound
    | plain =>
      rw [processLine_plain st page line hcl]
      simp only [Option.toList_none, List.append_nil]
      exact extractLoop_chain rest st page acc hchain hbound
    | heading level title =>
      by_cases h1 : level = 1
      · subst h1
        rw [processLine_h1 st page line title hcl]
        simp only [Option.toList_some]
        refine extractLoop_chain rest _ page _ ?_ ?_
        · rw [List.chain'_append]
          refine ⟨hchain, List.chain'_singleton _, ?_⟩
          intro x hx y hy
          simp only [List.head?_cons, Option.mem_def, Option.some.injEq] at hy
          subst hy
          show pathLtB (numPath x.name)
            (numPath (⟨decChars (st.c1 + 1)⟩ : String)) = true
          rw [numPath_one]
          exact (hbound x (mem_of_getLast_opt hx)).1
        · intro s hs
          rcases List.mem_append.1 hs with hs | hs
          · obtain ⟨hb1, hb2, hb3⟩ := hbound s hs
            refine ⟨?_, ?_, ?_⟩
            · exact pathLtB_trans _ _ _ hb1
                (pathLtB_cons_lt (Nat.lt_succ_self _) _ _)
            · refine pathLtB_trans _ _ _ hb1 ?_
              rw [pathLtB_cons_eq]
              exact pathLtB_nil_cons _ _
            · refine pathLtB_trans _ _ _ hb1 ?_
              rw [pathLtB_cons_eq]
              exact pathLtB_nil_cons _ _
          · rw [List.mem_singleton] at hs
            subst hs
            show pathLtB (numPath (⟨decChars (st.c1 + 1)⟩ : String)) _ = true ∧
              pathLtB (numPath (⟨decChars (st.c1 + 1)⟩ : String)) _ = true ∧
              pathLtB (numPath (⟨decChars (st.c1 + 1)⟩ : String)) _ = true
            rw [numPath_one]
            refine ⟨pathLtB_cons_lt (Nat.lt_succ_self _) _ _, ?_, ?_⟩
            · rw [pathLtB_cons_eq]
              exact pathLtB_nil_cons _ _
            · rw [pathLtB_cons_eq]
              exact pathLtB_nil_cons _ _
      · by_cases h2 : level = 2
        · subst h2
          rw [processLine_h2 st page line title hcl]
          simp only [Option.toList_some]
          refine extractLoop_chain rest _ page _ ?_ ?_
          · rw [List.chain'_append]
            refine ⟨hchain, List.chain'_singleton _, ?_⟩
            intro x hx y hy
            simp only [List.head?_cons, Option.mem_def, Option.some.injEq] at hy
            subst hy
            show pathLtB (numPath x.name) (numPath
              (⟨decChars st.c1 ++ '.' :: decChars (st.c2 + 1)⟩ : String)) = true
            rw [numPath_two]
            exact (hbound x (mem_of_getLast_opt hx)).2.1
          · intro s hs
            rcases List.mem_append.1 hs with hs | hs
            · obtain ⟨hb1, hb2, hb3⟩ := hbound s hs
              refine ⟨hb1, ?_, ?_⟩
              · refine pathLtB_trans _ _ _ hb2 ?_
                rw [pathLtB_cons_eq]
                exact pathLtB_cons_lt (Nat.lt_succ_self _) _ _
              · refine pathLtB_trans _ _ _ hb2 ?_
                rw [pathLtB_cons_eq, pathLtB_cons_eq]
                exact pathLtB_nil_cons _ _
            · rw [List.mem_singleton] at hs
              subst hs
              show pathLtB (numPath
                  (⟨decChars st.c1 ++ '.' :: decChars (st.c2 + 1)⟩ : String)) _ =
                  true ∧
                pathLtB (numPath
                  (⟨decChars st.c1 ++ '.' :: decChars (st.c2 + 1)⟩ : String)) _ =
                  true ∧
                pathLtB (numPath
                  (⟨decChars st.c1 ++ '.' :: decChars (st.c2 + 1)⟩ : String)) _ =
                  true
              rw [numPath_two]
              refine ⟨pathLtB_cons_lt (Nat.lt_succ_self _) _ _, ?_, ?_⟩
              · rw [pathLtB_cons_eq]
                exact pathLtB_cons_lt (Nat.lt_succ_self _) _ _
              · rw [pathLtB_cons_eq, pathLtB_cons_eq]
                exact pathLtB_nil_cons _ _
        · rw [processLine_hother st page line level title hcl h1 h2]
          simp only [Option.toList_some]
          refine extractLoop_chain rest _ page _ ?_ ?_
          · rw [List.chain'_append]
            refine ⟨hchain, List.chain'_singleton _, ?_⟩
            intro x hx y hy
            simp only [List.head?_cons, Option.mem_def, Option.some.injEq] at hy
            subst hy
            show pathLtB (numPath x.name)
              (numPath (⟨decChars st.c1 ++ '.' :: decChars st.c2 ++
                '.' :: decChars (st.c3 + 1)⟩ : String)) = true
            rw [numPath_three]
            exact (hbound x (mem_of_getLast_opt hx)).2.2
          · intro s hs
            rcases List.mem_append.1 hs with hs | hs
            · obtain ⟨hb1, hb2, hb3⟩ := hbound s hs
              refine ⟨hb1, hb2, ?_⟩
              refine pathLtB_trans _ _ _ hb3 ?_
              rw [pathLtB_cons_eq, pathLtB_cons_eq]
              exact pathLtB_cons_lt (Nat.lt_succ_self _) _ _
            · rw [List.mem_singleton] at hs
              subst hs
              show pathLtB (numPath (⟨decChars st.c1 ++ '.' :: decChars st.c2 ++
                  '.' :: decChars (st.c3 + 1)⟩ : String)) _ = true ∧
                pathLtB (numPath (⟨decChars st.c1 ++ '.' :: decChars st.c2 ++
                  '.' :: decChars (st.c3 + 1)⟩ : String)) _ = true ∧
                pathLtB (numPath (⟨decChars st.c1 ++ '.' :: decChars st.c2 ++
                  '.' :: decChars (st.c3 + 1)⟩ : String)) _ = true
              rw [numPath_three]
              refine ⟨pathLtB_cons_lt (Nat.lt_succ_self _) _ _, ?_, ?_⟩
              · rw [pathLtB_cons_eq]
                exact pathLtB_cons_lt (Nat.lt_succ_self _) _ _
              · rw [pathLtB_cons_eq, pathLtB_cons_eq]
                exact pathLtB_cons_lt (Nat.lt_succ_self _) _ _

/-- C8: for every input (even one with repeated heading patterns) and any
starting counter state, the section list yielded by `extract_sections`
carries strictly increasing numeric paths (adjacent sections compare with
the Python list-of-int `<` used as `_validate_sections`'s sort key), and
therefore contains each section name at most once: the dedup-after-sort of
`_validate_sections` (which `extract_sections` never even invokes) would
find no duplicate to drop, so «each name occurs at most once, first
occurrence kept» holds of the extraction output. -/
theorem c8_section_names_unique (st : ExtractorState) (md : String) :
    ((extractSections st md).1).Chain'
      (fun a b => pathLtB (numPath a.name) (numPath b.name) = true) ∧
    (((extractSections st md).1).map (fun s => s.name)).Nodup := by
  have hchain : ((extractSections st md).1).Chain'
      (fun a b => pathLtB (numPath a.name) (numPath b.name) = true) := by
    unfold extractSections
    exact extractLoop_chain (splitOnChar '\n' md.data) st 1 []
      List.chain'_nil (fun s hs => absurd hs (List.not_mem_nil s))
  refine ⟨hchain, ?_⟩
  have hpw := chain'_pairwise
    (fun a b c hab hbc =>
      pathLtB_trans (numPath a.name) (numPath b.name) (numPath c.name) hab hbc)
    _ hchain
  refine List.Pairwise.map (fun s => s.name) ?_ hpw
  intro a b hab heq
  simp only [] at heq
  rw [heq, pathLtB_irrefl] at hab
  exact Bool.false_ne_true hab

theorem extractLoop_c1 : ∀ (lines : List (List Char)) (st : ExtractorState)
    (page : Int) (acc : List Section),
    (extractLoop acc st page lines).2.c1 =
      st.c1 + (lines.filter (fun l => match classifyLine l with
        | .heading 1 _ => true | _ => false)).length
  | [], _, _, _ => by simp [extractLoop]
  | line :: rest, st, page, acc => by
    rw [extractLoop_cons]
    cases hcl : classifyLine line with
    | marker p' =>
      rw [processLine_marker st page line p' hcl]
      rw [extractLoop_c1 rest st p' _]
      simp [List.filter_cons, hcl]
    | plain =>
      rw [processLine_plain st page line hcl]
      rw [extractLoop_c1 rest st page _]
      simp [List.filter_cons, hcl]
    | heading level title =>
      rcases level with _ | _ | _ | n
      · rw [processLine_hother st page line 0 title hcl (by decide) (by decide)]
        rw [extractLoop_c1 rest _ page _]
        simp [List.filter_cons, hcl]
      · rw [processLine_h1 st page line title hcl]
        rw [extractLoop_c1 rest _ page _]
        simp only [List.filter_cons, hcl]
        simp [Nat.add_comm, Nat.add_assoc, Nat.add_left_comm]
      · rw [processLine_h2 st page line title hcl]
        rw [extractLoop_c1 rest _ page _]
        simp [List.filter_cons, hcl]
      · rw [processLine_hother st page line (n + 3) title hcl
          (by omega) (by omega)]
        rw [extractLoop_c1 rest _ page _]
        simp [List.filter_cons, hcl]

theorem extractLoop_first_h1 : ∀ (lines : List (List Char))
    (st : ExtractorState) (page : Int),
    0 < (lines.filter (fun l => match classifyLine l with
        | .heading 1 _ => true | _ => false)).length →
    ∃ s, ((extractLoop [] st page lines).1.find? noDotName) = some s ∧
      s.name = ⟨decChars (st.c1 + 1)⟩
  | [], _, _, h => absurd h (by simp)
  | line :: rest, st, page, h => by
    rw [extractLoop_cons]
    cases hcl : classifyLine line with
    | marker p' =>
      rw [processLine_marker st page line p' hcl]
      simp only [Option.toList_none, List.append_nil]
      refine extractLoop_first_h1 rest st p' ?_
      simpa [List.filter_cons, hcl] using h
    | plain =>
      rw [processLine_plain st page line hcl]
      simp only [Option.toList_none, List.append_nil]
      refine extractLoop_first_h1 rest st page ?_
      simpa [List.filter_cons, hcl] using h
    | heading level title =>
      rcases level with _ | _ | _ | n
      · rw [processLine_hother st page line 0 title hcl (by decide) (by decide)]
        simp only [Option.toList_some, List.nil_append]
        rw [extractLoop_append rest _ page _]
        rw [List.singleton_append]
        rw [List.find?_cons_of_neg]
        · obtain ⟨s, hfind, hname⟩ := extractLoop_first_h1 rest _ page
            (by simpa [List.filter_cons, hcl] using h)
          exact ⟨s, hfind, hname⟩
        · show ¬ noDotName ⟨⟨decChars st.c1 ++ '.' :: decChars st.c2 ++
            '.' :: decChars (st.c3 + 1)⟩, ⟨title⟩, page, true, st.l2⟩ = true
          unfold noDotName
          simp only [decide_eq_true_eq]
          intro hnd
          exact hnd (List.mem_append_right _ (List.mem_cons_self _ _))
      · rw [processLine_h1 st page line title hcl]
        simp only [Option.toList_some, List.nil_append]
        rw [extractLoop_append rest _ page _]
        rw [List.singleton_append]
        rw [List.find?_cons_of_pos]
        · exact ⟨_, rfl, rfl⟩
        · show noDotName ⟨⟨decChars (st.c1 + 1)⟩, ⟨title⟩, page, false, none⟩ =
            true
          unfold noDotName
          exact decide_eq_true (decChars_no_dot (st.c1 + 1))
      · rw [processLine_h2 st page line title hcl]
        simp only [Option.toList_some, List.nil_append]
        rw [extractLoop_append rest _ page _]
        rw [List.singleton_append]
        rw [List.find?_cons_of_neg]
        · obtain ⟨s, hfind, hname⟩ := extractLoop_first_h1 rest _ page
            (by simpa [List.filter_cons, hcl] using h)
          exact ⟨s, hfind, hname⟩
        · show ¬ noDotName ⟨⟨decChars st.c1 ++ '.' :: decChars (st.c2 + 1)⟩,
            ⟨title⟩, page, false, none⟩ = true
          unfold noDotName
          simp only [decide_eq_true_eq]
          intro hnd
          exact hnd (List.mem_append_right _ (List.mem_cons_self _ _))
      · rw [processLine_hother st page line (n + 3) title hcl
          (by omega) (by omega)]
        simp only [Option.toList_some, List.nil_append]
        rw [extractLoop_append rest _ page _]
        rw [List.singleton_append]
        rw [List.find?_cons_of_neg]
        · obtain ⟨s, hfind, hname⟩ := extractLoop_first_h1 rest _ page
            (by simpa [List.filter_cons, hcl] using h)
          exact ⟨s, hfind, hname⟩
        · show ¬ noDotName ⟨⟨decChars st.c1 ++ '.' :: decChars st.c2 ++
            '.' :: decChars (st.c3 + 1)⟩, ⟨title⟩, page, true, st.l2⟩ = true
          unfold noDotName
          simp only [decide_eq_true_eq]
          intro hnd
          exact hnd (List.mem_append_right _ (List.mem_cons_self _ _))

/-- C4: the numbering counters live in `SectionExtractor.__init__` and
`extract_sections` never resets them, while `PDFProcessor` builds one
extractor at init and reuses it for every `process_pdf`: after a first
call on a fresh extractor whose text has `h1Count t1` depth-1 headings,
the counter `c1` equals that count, and a second call's first depth-1
section (the first section whose name has no '.') is named
`str(h1Count t1 + 1)` — in particular not "1" when the first text had
any depth-1 heading at all. -/
theorem c4_counters_never_reset (t1 t2 : String) (h2pos : 0 < h1Count t2) :
    ((extractSections initState t1).2).c1 = h1Count t1 ∧
    ∃ s, (((extractSections ((extractSections initState t1).2) t2).1).find?
        noDotName) = some s ∧
      s.name = ⟨decChars (h1Count t1 + 1)⟩ ∧
      (0 < h1Count t1 → s.name ≠ "1") := by
  have ha : ((extractSections initState t1).2).c1 = h1Count t1 := by
    unfold extractSections h1Count
    rw [extractLoop_c1]
    exact Nat.zero_add _
  refine ⟨ha, ?_⟩
  obtain ⟨s, hfind, hname⟩ :=
    extractLoop_first_h1 (splitOnChar '\n' t2.data)
      ((extractSections initState t1).2) 1 (by exact h2pos)
  refine ⟨s, hfind, ?_, ?_⟩
  · rw [hname, ha]
  · intro hk heq
    rw [hname, ha] at heq
    have hdata : decChars (h1Count t1 + 1) = decChars 1 :=
      congrArg String.data heq
    have := decChars_inj _ _ hdata
    omega

theorem c4_counters_never_reset_witness :
    0 < h1Count "# c" ∧
    (((extractSections initState "# a\n# b").2).c1 = h1Count "# a\n# b" ∧
      ∃ s, (((extractSections ((extractSections initState "# a\n# b").2)
          "# c").1).find? noDotName) = some s ∧
        s.name = ⟨decChars (h1Count "# a\n# b" + 1)⟩ ∧
        (0 < h1Count "# a\n# b" → s.name ≠ "1")) :=
  ⟨by decide, c4_counters_never_reset "# a\n# b" "# c" (by decide)⟩

theorem orchFrame_rfl (S : List String) (st : OrchState) : orchFrame S st st :=
  ⟨⟨[], by simp, by simp⟩, ⟨[], by simp⟩, ⟨[], by simp⟩, ⟨[], by simp, by simp⟩,
    ⟨[], by simp, by simp⟩, ⟨[], by simp, by simp⟩, ⟨[], by simp⟩⟩

theorem orchFrame_trans {S : List String} {st st' st'' : OrchState}
    (h1 : orchFrame S st st') (h2 : orchFrame S st' st'') :
    orchFrame S st st'' := by
  obtain ⟨⟨t1, e1, m1⟩, ⟨t2, e2⟩, ⟨t3, e3⟩, ⟨t4, e4, m4⟩, ⟨t5, e5, m5⟩,
    ⟨t6, e6, m6⟩, ⟨t7, e7⟩⟩ := h1
  obtain ⟨⟨u1, f1, n1⟩, ⟨u2, f2⟩, ⟨u3, f3⟩, ⟨u4, f4, n4⟩, ⟨u5, f5, n5⟩,
    ⟨u6, f6, n6⟩, ⟨u7, f7⟩⟩ := h2
  refine ⟨⟨t1 ++ u1, ?_, ?_⟩, ⟨t2 ++ u2, ?_⟩, ⟨t3 ++ u3, ?_⟩, ⟨t4 ++ u4, ?_, ?_⟩,
    ⟨t5 ++ u5, ?_, ?_⟩, ⟨t6 ++ u6, ?_, ?_⟩, ⟨t7 ++ u7, ?_⟩⟩
  · rw [f1, e1, List.append_assoc]
  · intro q hq
    rcases List.mem_append.1 hq with h | h
    exacts [m1 q h, n1 q h]
  · rw [f2, e2, List.append_assoc]
  · rw [f3, e3, List.append_assoc]
  · rw [f4, e4, List.append_assoc]
  · intro q hq
    rcases List.mem_append.1 hq with h | h
    exacts [m4 q h, n4 q h]
  · rw [f5, e5, List.append_assoc]
  · intro q hq
    rcases List.mem_append.1 hq with h | h
    exacts [m5 q h, n5 q h]
  · rw [f6, e6, List.append_assoc]
  · intro q hq
    rcases List.mem_append.1 hq with h | h
    exacts [m6 q h, n6 q h]
  · rw [f7, e7, List.append_assoc]

theorem orchFrame_mono {S S' : List String} {st st' : OrchState}
    (hS : ∀ q ∈ S, q ∈ S') (h : orchFrame S st st') : orchFrame S' st st' := by
  obtain ⟨⟨t1, e1, m1⟩, h2, h3, ⟨t4, e4, m4⟩, ⟨t5, e5, m5⟩, ⟨t6, e6, m6⟩, h7⟩ := h
  exact ⟨⟨t1, e1, fun q hq => hS q (m1 q hq)⟩, h2, h3,
    ⟨t4, e4, fun q hq => hS q (m4 q hq)⟩, ⟨t5, e5, fun q hq => hS q (m5 q hq)⟩,
    ⟨t6, e6, fun q hq => hS q (m6 q hq)⟩, h7⟩

theorem orchFrame_checkpoint (S : List String) (st : OrchState) (w : List String) :
    orchFrame S st
      { st with checkpointWrites := st.checkpointWrites ++ [w] } :=
  ⟨⟨[], by simp, by simp⟩, ⟨[], by simp⟩, ⟨[], by simp⟩, ⟨[], by simp, by simp⟩,
    ⟨[], by simp, by simp⟩, ⟨[], by simp, by simp⟩, ⟨[w], rfl⟩⟩

theorem afterContent_raise (env : OrchEnv) (st : OrchState) (pid : String)
    (h : env.process pid = .pRaise) :
    afterContent env st pid =
      ({ st with skipped := st.skipped ++ [pid, pid],
                 errorLog := st.errorLog ++ [(pid, "process"), (pid, "overall")],
                 skipLog := st.skipLog ++ [(pid, "process_error"), (pid, "rag_error")],
                 processCalls := st.processCalls ++ [pid] }, .error ()) := by
  cases st
  simp [afterContent, h, logError, logSkip]

theorem afterContent_empty (env : OrchEnv) (st : OrchState) (pid : String)
    (h : env.process pid = .pEmpty) :
    afterContent env st pid =
      ({ st with skipped := st.skipped ++ [pid],
                 skipLog := st.skipLog ++ [(pid, "processing_failed")],
                 processCalls := st.processCalls ++ [pid] }, .ok false) := by
  cases st
  simp [afterContent, h, logError, logSkip]

theorem afterContent_okres (env : OrchEnv) (st : OrchState) (pid : String)
    (hp : env.process pid = .pOk) (hr : env.ragOk pid = true) :
    afterContent env st pid =
      ({ st with processCalls := st.processCalls ++ [pid] }, .ok true) := by
  cases st
  simp [afterContent, hp, hr, logError, logSkip]

theorem afterContent_ragfail (env : OrchEnv) (st : OrchState) (pid : String)
    (hp : env.process pid = .pOk) (hr : env.ragOk pid = false) :
    afterContent env st pid =
      ({ st with skipped := st.skipped ++ [pid, pid],
                 errorLog := st.errorLog ++ [(pid, "rag"), (pid, "overall")],
                 skipLog := st.skipLog ++ [(pid, "rag_error"), (pid, "rag_error")],
                 processCalls := st.processCalls ++ [pid] }, .error ()) := by
  cases st
  simp [afterContent, hp, hr, logError, logSkip]

theorem afterContent_frame (env : OrchEnv) (st : OrchState) (pid : String) :
    orchFrame [pid] st (afterContent env st pid).1 := by
  cases hp : env.process pid with
  | pRaise =>
    rw [afterContent_raise env st pid hp]
    exact ⟨⟨[pid, pid], rfl, by simp⟩, ⟨[(pid, "process"), (pid, "overall")], rfl⟩,
      ⟨[(pid, "process_error"), (pid, "rag_error")], rfl⟩, ⟨[], by simp, by simp⟩,
      ⟨[pid], rfl, by simp⟩, ⟨[], by simp, by simp⟩, ⟨[], by simp⟩⟩
  | pEmpty =>
    rw [afterContent_empty env st pid hp]
    exact ⟨⟨[pid], rfl, by simp⟩, ⟨[], by simp⟩,
      ⟨[(pid, "processing_failed")], rfl⟩, ⟨[], by simp, by simp⟩,
      ⟨[pid], rfl, by simp⟩, ⟨[], by simp, by simp⟩, ⟨[], by simp⟩⟩
  | pOk =>
    cases hr : env.ragOk pid with
    | true =>
      rw [afterContent_okres env st pid hp hr]
      exact ⟨⟨[], by simp, by simp⟩, ⟨[], by simp⟩, ⟨[], by simp⟩,
        ⟨[], by simp, by simp⟩, ⟨[pid], rfl, by simp⟩, ⟨[], by simp, by simp⟩,
        ⟨[], by simp⟩⟩
    | false =>
      rw [afterContent_ragfail env st pid hp hr]
      exact ⟨⟨[pid, pid], rfl, by simp⟩, ⟨[(pid, "rag"), (pid, "overall")], rfl⟩,
        ⟨[(pid, "rag_error"), (pid, "rag_error")], rfl⟩, ⟨[], by simp, by simp⟩,
        ⟨[pid], rfl, by simp⟩, ⟨[], by simp, by simp⟩, ⟨[], by simp⟩⟩

theorem psp_skip (env : OrchEnv) (st : OrchState) (pid : String)
    (h : pid ∈ st.skipped) :
    processSinglePaper env st pid = (st, .ok false) := by
  simp [processSinglePaper, h]

theorem psp_cached (env : OrchEnv) (st : OrchState) (pid : String)
    (hsk : pid ∉ st.skipped) (hcc : pid ∈ st.cache ∨ env.cachedInit pid = true) :
    processSinglePaper env st pid = afterContent env st pid := by
  rcases hcc with hc | hc
  · simp [processSinglePaper, hsk, hc]
  · simp [processSinglePaper, hsk, hc]

theorem psp_fok (env : OrchEnv) (st : OrchState) (pid : String)
    (hsk : pid ∉ st.skipped) (hcn : pid ∉ st.cache)
    (hci : env.cachedInit pid = false) (hf : env.fetch pid = .fOk) :
    processSinglePaper env st pid =
      afterContent env
        { st with fetchCalls := st.fetchCalls ++ [pid],
                  cache := st.cache ++ [pid] } pid := by
  simp [processSinglePaper, hsk, hcn, hci, hf]

theorem psp_falsy (env : OrchEnv) (st : OrchState) (pid : String)
    (hsk : pid ∉ st.skipped) (hcn : pid ∉ st.cache)
    (hci : env.cachedInit pid = false) (hf : env.fetch pid = .fFalsy) :
    processSinglePaper env st pid =
      ({ st with skipped := st.skipped ++ [pid],
                 skipLog := st.skipLog ++ [(pid, "fetch_failed")],
                 fetchCalls := st.fetchCalls ++ [pid] }, .ok false) := by
  cases st
  simp [processSinglePaper, hsk, hcn, hci, hf, logSkip]

theorem psp_transient (env : OrchEnv) (st : OrchState) (pid : String)
    (hsk : pid ∉ st.skipped) (hcn : pid ∉ st.cache)
    (hci : env.cachedInit pid = false) (hf : env.fetch pid = .fTransient) :
    processSinglePaper env st pid =
      ({ st with skipped := st.skipped ++ [pid],
                 errorLog := st.errorLog ++
                   [(pid, "fetch"), (pid, "fetch"), (pid, "fetch"), (pid, "overall")],
                 skipLog := st.skipLog ++ [(pid, "rag_error")],
                 fetchCalls := st.fetchCalls ++ [pid, pid, pid] }, .error ()) := by
  cases st
  simp [processSinglePaper, hsk, hcn, hci, hf, logError, logSkip]

theorem psp_frame (env : OrchEnv) (st : OrchState) (pid : String) :
    orchFrame [pid] st (processSinglePaper env st pid).1 := by
  by_cases hsk : pid ∈ st.skipped
  · rw [psp_skip env st pid hsk]
    exact orchFrame_rfl _ _
  · by_cases hca : pid ∈ st.cache
    · rw [psp_cached env st pid hsk (Or.inl hca)]
      exact afterContent_frame env st pid
    · cases hci : env.cachedInit pid with
      | true =>
        rw [psp_cached env st pid hsk (Or.inr hci)]
        exact afterContent_frame env st pid
      | false =>
        cases hf : env.fetch pid with
        | fOk =>
          rw [psp_fok env st pid hsk hca hci hf]
          refine orchFrame_trans ?_ (afterContent_frame env _ pid)
          exact ⟨⟨[], by simp, by simp⟩, ⟨[], by simp⟩, ⟨[], by simp⟩,
            ⟨[pid], rfl, by simp⟩, ⟨[], by simp, by simp⟩, ⟨[pid], rfl, by simp⟩,
            ⟨[], by simp⟩⟩
        | fFalsy =>
          rw [psp_falsy env st pid hsk hca hci hf]
          exact ⟨⟨[pid], rfl, by simp⟩, ⟨[], by simp⟩,
            ⟨[(pid, "fetch_failed")], rfl⟩, ⟨[pid], rfl, by simp⟩,
            ⟨[], by simp, by simp⟩, ⟨[], by simp, by simp⟩, ⟨[], by simp⟩⟩
        | fTransient =>
          rw [psp_transient env st pid hsk hca hci hf]
          exact ⟨⟨[pid], rfl, by simp⟩,
            ⟨[(pid, "fetch"), (pid, "fetch"), (pid, "fetch"), (pid, "overall")], rfl⟩,
            ⟨[(pid, "rag_error")], rfl⟩, ⟨[pid, pid, pid], rfl, by simp⟩,
            ⟨[], by simp, by simp⟩, ⟨[], by simp, by simp⟩, ⟨[], by simp⟩⟩

theorem psp_checkpointWrites (env : OrchEnv) (st : OrchState) (pid : String) :
    (processSinglePaper env st pid).1.checkpointWrites = st.checkpointWrites := by
  obtain ⟨_, _, _, _, _, _, ⟨t, ht⟩⟩ := psp_frame env st pid
  by_cases hsk : pid ∈ st.skipped
  · rw [psp_skip env st pid hsk]
  · by_cases hca : pid ∈ st.cache
    · rw [psp_cached env st pid hsk (Or.inl hca)]
      cases hp : env.process pid with
      | pRaise => rw [afterContent_raise env st pid hp]
      | pEmpty => rw [afterContent_empty env st pid hp]
      | pOk =>
        cases hr : env.ragOk pid with
        | true => rw [afterContent_okres env st pid hp hr]
        | false => rw [afterContent_ragfail env st pid hp hr]
    · cases hci : env.cachedInit pid with
      | true =>
        rw [psp_cached env st pid hsk (Or.inr hci)]
        cases hp : env.process pid with
        | pRaise => rw [afterContent_raise env st pid hp]
        | pEmpty => rw [afterContent_empty env st pid hp]
        | pOk =>
          cases hr : env.ragOk pid with
          | true => rw [afterContent_okres env st pid hp hr]
          | false => rw [afterContent_ragfail env st pid hp hr]
      | false =>
        cases hf : env.fetch pid with
        | fOk =>
          rw [psp_fok env st pid hsk hca hci hf]
          cases hp : env.process pid with
          | pRaise => rw [afterContent_raise env _ pid hp]
          | pEmpty => rw [afterContent_empty env _ pid hp]
          | pOk =>
            cases hr : env.ragOk pid with
            | true => rw [afterContent_okres env _ pid hp hr]
            | false => rw [afterContent_ragfail env _ pid hp hr]
        | fFalsy => rw [psp_falsy env st pid hsk hca hci hf]
        | fTransient => rw [psp_transient env st pid hsk hca hci hf]

theorem runBatch_frame (env : OrchEnv) : ∀ (batch : List String) (st : OrchState),
    orchFrame batch st (runBatch env st batch).1
  | [], st => orchFrame_rfl _ _
  | pid :: rest, st => by
    show orchFrame (pid :: rest) st
      (runBatch env (processSinglePaper env st pid).1 rest).1
    refine orchFrame_trans (orchFrame_mono ?_ (psp_frame env st pid))
      (orchFrame_mono ?_ (runBatch_frame env rest _))
    · intro q hq
      rw [List.mem_singleton] at hq
      exact hq ▸ List.mem_cons_self pid rest
    · intro q hq
      exact List.mem_cons_of_mem pid hq

theorem runBatch_checkpointWrites (env : OrchEnv) :
    ∀ (batch : List String) (st : OrchState),
    (runBatch env st batch).1.checkpointWrites = st.checkpointWrites
  | [], _ => rfl
  | pid :: rest, st => by
    show (runBatch env (processSinglePaper env st pid).1 rest).1.checkpointWrites =
      st.checkpointWrites
    rw [runBatch_checkpointWrites env rest _, psp_checkpointWrites env st pid]

theorem runBatch_results_fst (env : OrchEnv) :
    ∀ (batch : List String) (st : OrchState),
    ((runBatch env st batch).2).map Prod.fst = batch
  | [], _ => rfl
  | pid :: rest, st => by
    show List.map Prod.fst ((pid, (processSinglePaper env st pid).2) ::
        (runBatch env (processSinglePaper env st pid).1 rest).2) = pid :: rest
    rw [List.map_cons, runBatch_results_fst env rest _]

theorem newly_sub (rs : List (String × Except Unit Bool)) (q : String)
    (h : q ∈ newlyProcessed rs) : q ∈ rs.map Prod.fst := by
  unfold newlyProcessed at h
  rcases List.mem_map.1 h with ⟨r, hr, rfl⟩
  exact List.mem_map_of_mem Prod.fst (List.mem_of_mem_filter hr)

theorem mem_newly_of_ok (rs : List (String × Except Unit Bool)) (y : String)
    (b : Bool) (h : (y, Except.ok b) ∈ rs) : y ∈ newlyProcessed rs := by
  unfold newlyProcessed
  exact List.mem_map.2 ⟨(y, Except.ok b), List.mem_filter.2 ⟨h, rfl⟩, rfl⟩

theorem not_mem_newly (rs : List (String × Except Unit Bool)) (x : String)
    (h : ∀ p ∈ rs, p.1 = x → p.2 = Except.error ()) :
    x ∉ newlyProcessed rs := by
  intro hx
  unfold newlyProcessed at hx
  rcases List.mem_map.1 hx with ⟨r, hr, hfst⟩
  have hmem := List.mem_of_mem_filter hr
  have hok := List.of_mem_filter hr
  have := h r hmem hfst
  rw [this] at hok
  simp at hok

theorem mem_setAdd {q : String} {p n : List String} :
    q ∈ setAdd p n ↔ q ∈ p ∨ q ∈ n := by
  unfold setAdd
  simp only [List.mem_append, List.mem_filter]
  constructor
  · rintro (h | ⟨h, _⟩)
    exacts [Or.inl h, Or.inr h]
  · rintro (h | h)
    · exact Or.inl h
    · by_cases hp : q ∈ p
      · exact Or.inl hp
      · exact Or.inr ⟨h, by simpa using hp⟩

theorem toBatchesGo_flatten_sub (bs : Nat) :
    ∀ (fuel : Nat) (l : List String) (q : String),
    q ∈ (toBatchesGo bs fuel l).flatten → q ∈ l
  | 0, l, q, h => by simp [toBatchesGo] at h
  | fuel + 1, [], q, h => by simp [toBatchesGo] at h
  | fuel + 1, a :: t, q, h => by
    have heq : toBatchesGo bs (fuel + 1) (a :: t) =
        (a :: t).take bs :: toBatchesGo bs fuel ((a :: t).drop bs) := rfl
    rw [heq, List.flatten_cons, List.mem_append] at h
    rcases h with h | h
    · exact List.take_subset bs (a :: t) h
    · exact List.drop_subset bs (a :: t) (toBatchesGo_flatten_sub bs fuel _ q h)

theorem toBatchesGo_flatten (bs : Nat) (hbs : 0 < bs) :
    ∀ (fuel : Nat) (l : List String), l.length ≤ fuel →
    (toBatchesGo bs fuel l).flatten = l
  | 0, [], _ => rfl
  | 0, a :: t, h => by simp at h
  | fuel + 1, [], _ => by simp [toBatchesGo]
  | fuel + 1, a :: t, h => by
    have heq : toBatchesGo bs (fuel + 1) (a :: t) =
        (a :: t).take bs :: toBatchesGo bs fuel ((a :: t).drop bs) := rfl
    rw [heq, List.flatten_cons,
      toBatchesGo_flatten bs hbs fuel ((a :: t).drop bs)
        (by simp only [List.length_drop, List.length_cons]; simp at h; omega)]
    exact List.take_append_drop bs (a :: t)

theorem toBatches_flatten (bs : Nat) (hbs : 0 < bs) (l : List String) :
    (toBatches bs l).flatten = l :=
  toBatchesGo_flatten bs hbs l.length l (Nat.le_refl _)

theorem toBatches_flatten_sub (bs : Nat) (l : List String) (q : String)
    (h : q ∈ (toBatches bs l).flatten) : q ∈ l :=
  toBatchesGo_flatten_sub bs l.length l q h

theorem ingestLoop_cons (env : OrchEnv) (b : List String)
    (rest : List (List String)) (st : OrchState) (processed : List String) :
    ingestLoop env (b :: rest) st processed =
      ingestLoop env rest
        { (runBatch env st b).1 with checkpointWrites :=
            (runBatch env st b).1.checkpointWrites ++
              [setAdd processed (newlyProcessed (runBatch env st b).2)] }
        (setAdd processed (newlyProcessed (runBatch env st b).2)) := rfl

theorem ingestLoop_frame (env : OrchEnv) :
    ∀ (batches : List (List String)) (st : OrchState) (processed : List String),
    orchFrame batches.flatten st (ingestLoop env batches st processed).1
  | [], st, processed => orchFrame_rfl _ _
  | b :: rest, st, processed => by
    rw [ingestLoop_cons]
    refine orchFrame_trans (orchFrame_mono ?_ (runBatch_frame env b st))
      (orchFrame_trans
        (orchFrame_checkpoint ((b :: rest).flatten) (runBatch env st b).1
          (setAdd processed (newlyProcessed (runBatch env st b).2)))
        (orchFrame_mono ?_ (ingestLoop_frame env rest _ _)))
    · intro q hq
      rw [List.flatten_cons]
      exact List.mem_append_left _ hq
    · intro q hq
      rw [List.flatten_cons]
      exact List.mem_append_right _ hq

theorem ingestLoop_processed (env : OrchEnv) :
    ∀ (batches : List (List String)) (st : OrchState) (processed : List String),
    ∃ t, (ingestLoop env batches st processed).2 = processed ++ t ∧
      ∀ q ∈ t, q ∈ batches.flatten
  | [], st, processed => ⟨[], by simp [ingestLoop], by simp⟩
  | b :: rest, st, processed => by
    rw [ingestLoop_cons]
    obtain ⟨t2, he2, hm2⟩ := ingestLoop_processed env rest
      { (runBatch env st b).1 with checkpointWrites :=
          (runBatch env st b).1.checkpointWrites ++
            [setAdd processed (newlyProcessed (runBatch env st b).2)] }
      (setAdd processed (newlyProcessed (runBatch env st b).2))
    refine ⟨(newlyProcessed (runBatch env st b).2).filter
        (fun p => p ∉ processed) ++ t2, ?_, ?_⟩
    · rw [he2]
      show setAdd processed (newlyProcessed (runBatch env st b).2) ++ t2 = _
      unfold setAdd
      rw [List.append_assoc]
    · intro q hq
      rw [List.flatten_cons]
      rcases List.mem_append.1 hq with h | h
      · refine List.mem_append_left _ ?_
        have hn := List.mem_of_mem_filter h
        have := newly_sub _ q hn
        rw [runBatch_results_fst env b st] at this
        exact this
      · exact List.mem_append_right _ (hm2 q h)

theorem ingestLoop_writes (env : OrchEnv) :
    ∀ (batches : List (List String)) (st : OrchState) (processed : List String),
    ∀ w ∈ (ingestLoop env batches st processed).1.checkpointWrites,
      w ∈ st.checkpointWrites ∨
        ∃ t, w = processed ++ t ∧ ∀ q ∈ t, q ∈ batches.flatten
  | [], st, processed, w, hw => Or.inl hw
  | b :: rest, st, processed, w, hw => by
    rw [ingestLoop_cons] at hw
    have hnsub : ∀ q ∈ (newlyProcessed (runBatch env st b).2).filter
        (fun p => p ∉ processed), q ∈ (b :: rest).flatten := by
      intro q hq
      rw [List.flatten_cons]
      refine List.mem_append_left _ ?_
      have := newly_sub _ q (List.mem_of_mem_filter hq)
      rw [runBatch_results_fst env b st] at this
      exact this
    rcases ingestLoop_writes env rest _ _ w hw with hin | ⟨t, rfl, hm⟩
    · show w ∈ st.checkpointWrites ∨ _
      have hcw : ({ (runBatch env st b).1 with checkpointWrites :=
          (runBatch env st b).1.checkpointWrites ++
            [setAdd processed (newlyProcessed (runBatch env st b).2)] } :
          OrchState).checkpointWrites =
          st.checkpointWrites ++
            [setAdd processed (newlyProcessed (runBatch env st b).2)] := by
        show (runBatch env st b).1.checkpointWrites ++ _ = _
        rw [runBatch_checkpointWrites env b st]
      rw [hcw] at hin
      rcases List.mem_append.1 hin with h | h
      · exact Or.inl h
      · rw [List.mem_singleton] at h
        subst h
        refine Or.inr ⟨(newlyProcessed (runBatch env st b).2).filter
          (fun p => p ∉ processed), rfl, hnsub⟩
    · refine Or.inr ⟨(newlyProcessed (runBatch env st b).2).filter
        (fun p => p ∉ processed) ++ t, ?_, ?_⟩
      · show setAdd processed (newlyProcessed (runBatch env st b).2) ++ t = _
        unfold setAdd
        rw [List.append_assoc]
      · intro q hq
        rcases List.mem_append.1 hq with h | h
        · exact hnsub q h
        · rw [List.flatten_cons]
          exact List.mem_append_right _ (hm q h)

theorem runBatch_cons (env : OrchEnv) (st : OrchState) (pid : String)
    (rest : List String) :
    runBatch env st (pid :: rest) =
      ((runBatch env (processSinglePaper env st pid).1 rest).1,
        (pid, (processSinglePaper env st pid).2) ::
          (runBatch env (processSinglePaper env st pid).1 rest).2) := rfl

theorem runBatch_raise (env : OrchEnv) :
    ∀ (b : List String) (st : OrchState) (x : String),
    x ∈ b → b.Nodup → x ∉ st.skipped → x ∉ st.cache →
    env.cachedInit x = false → env.fetch x = .fOk → env.process x = .pRaise →
    x ∉ st.processCalls →
    ((x, "process") ∈ (runBatch env st b).1.errorLog ∧
     (x, "process_error") ∈ (runBatch env st b).1.skipLog ∧
     (runBatch env st b).1.processCalls.count x = 1 ∧
     ∀ p ∈ (runBatch env st b).2, p.1 = x → p.2 = Except.error ())
  | [], _, x, hx, _, _, _, _, _, _, _ => absurd hx (List.not_mem_nil x)
  | pid :: rest, st, x, hx, hnd, hsk, hcn, hci, hf, hpr, hpc => by
    rw [List.nodup_cons] at hnd
    by_cases hpx : pid = x
    · subst hpx
      have hxr : pid ∉ rest := hnd.1
      have hpsp : processSinglePaper env st pid =
          ({ st with skipped := st.skipped ++ [pid, pid],
                     errorLog := st.errorLog ++ [(pid, "process"), (pid, "overall")],
                     skipLog := st.skipLog ++
                       [(pid, "process_error"), (pid, "rag_error")],
                     fetchCalls := st.fetchCalls ++ [pid],
                     processCalls := st.processCalls ++ [pid],
                     cache := st.cache ++ [pid] }, .error ()) := by
        rw [psp_fok env st pid hsk hcn hci hf, afterContent_raise env _ pid hpr]
      rw [runBatch_cons, hpsp]
      obtain ⟨_, ⟨te, ee⟩, ⟨ts, es⟩, _, ⟨tp, ep, mp⟩, _, _⟩ :=
        runBatch_frame env rest
          { st with skipped := st.skipped ++ [pid, pid],
                    errorLog := st.errorLog ++ [(pid, "process"), (pid, "overall")],
                    skipLog := st.skipLog ++
                      [(pid, "process_error"), (pid, "rag_error")],
                    fetchCalls := st.fetchCalls ++ [pid],
                    processCalls := st.processCalls ++ [pid],
                    cache := st.cache ++ [pid] }
      refine ⟨?_, ?_, ?_, ?_⟩
      · rw [ee]
        refine List.mem_append_left _ ?_
        show (pid, "process") ∈ st.errorLog ++ [(pid, "process"), (pid, "overall")]
        exact List.mem_append_right _ (by simp)
      · rw [es]
        refine List.mem_append_left _ ?_
        show (pid, "process_error") ∈
          st.skipLog ++ [(pid, "process_error"), (pid, "rag_error")]
        exact List.mem_append_right _ (by simp)
      · rw [ep]
        show ((st.processCalls ++ [pid]) ++ tp).count pid = 1
        rw [List.count_append, List.count_append]
        have h1 : st.processCalls.count pid = 0 := List.count_eq_zero.2 hpc
        have h2 : tp.count pid = 0 := by
          refine List.count_eq_zero.2 ?_
          intro hmem
          exact hxr (mp pid hmem)
        simp [h1, h2]
      · intro p hp hfst
        rcases List.mem_cons.1 hp with rfl | hp
        · rfl
        · exfalso
          have := List.mem_map_of_mem Prod.fst hp
          rw [runBatch_results_fst env rest _] at this
          rw [hfst] at this
          exact hxr this
    · have hxr : x ∈ rest := by
        rcases List.mem_cons.1 hx with h | h
        · exact absurd h.symm hpx
        · exact h
      obtain ⟨⟨t1, e1, m1⟩, _, _, _, ⟨t5, e5, m5⟩, ⟨t6, e6, m6⟩, _⟩ :=
        psp_frame env st pid
      have hsk' : x ∉ (processSinglePaper env st pid).1.skipped := by
        rw [e1]
        intro hmem
        rcases List.mem_append.1 hmem with h | h
        · exact hsk h
        · have := m1 x h
          rw [List.mem_singleton] at this
          exact hpx this.symm
      have hcn' : x ∉ (processSinglePaper env st pid).1.cache := by
        rw [e6]
        intro hmem
        rcases List.mem_append.1 hmem with h | h
        · exact hcn h
        · have := m6 x h
          rw [List.mem_singleton] at this
          exact hpx this.symm
      have hpc' : x ∉ (processSinglePaper env st pid).1.processCalls := by
        rw [e5]
        intro hmem
        rcases List.mem_append.1 hmem with h | h
        · exact hpc h
        · have := m5 x h
          rw [List.mem_singleton] at this
          exact hpx this.symm
      obtain ⟨ih1, ih2, ih3, ih4⟩ := runBatch_raise env rest
        (processSinglePaper env st pid).1 x hxr hnd.2 hsk' hcn' hci hf hpr hpc'
      rw [runBatch_cons]
      refine ⟨ih1, ih2, ih3, ?_⟩
      intro p hp hfst
      rcases List.mem_cons.1 hp with rfl | hp
      · exact absurd hfst hpx
      · exact ih4 p hp hfst

theorem runBatch_good (env : OrchEnv) :
    ∀ (b : List String) (st : OrchState) (y : String),
    y ∈ b → b.Nodup → y ∉ st.skipped → y ∉ st.cache →
    env.cachedInit y = false → env.fetch y = .fOk → env.process y = .pOk →
    env.ragOk y = true →
    (y, Except.ok true) ∈ (runBatch env st b).2
  | [], _, y, hy, _, _, _, _, _, _, _ => absurd hy (List.not_mem_nil y)
  | pid :: rest, st, y, hy, hnd, hsk, hcn, hci, hf, hpo, hrg => by
    rw [List.nodup_cons] at hnd
    by_cases hpy : pid = y
    · subst hpy
      have hpsp : processSinglePaper env st pid =
          ({ st with fetchCalls := st.fetchCalls ++ [pid],
                     processCalls := st.processCalls ++ [pid],
                     cache := st.cache ++ [pid] }, .ok true) := by
        rw [psp_fok env st pid hsk hcn hci hf, afterContent_okres env _ pid hpo hrg]
      rw [runBatch_cons, hpsp]
      exact List.mem_cons_self _ _
    · have hyr : y ∈ rest := by
        rcases List.mem_cons.1 hy with h | h
        · exact absurd h.symm hpy
        · exact h
      obtain ⟨⟨t1, e1, m1⟩, _, _, _, _, ⟨t6, e6, m6⟩, _⟩ := psp_frame env st pid
      have hsk' : y ∉ (processSinglePaper env st pid).1.skipped := by
        rw [e1]
        intro hmem
        rcases List.mem_append.1 hmem with h | h
        · exact hsk h
        · have := m1 y h
          rw [List.mem_singleton] at this
          exact hpy this.symm
      have hcn' : y ∉ (processSinglePaper env st pid).1.cache := by
        rw [e6]
        intro hmem
        rcases List.mem_append.1 hmem with h | h
        · exact hcn h
        · have := m6 y h
          rw [List.mem_singleton] at this
          exact hpy this.symm
      rw [runBatch_cons]
      exact List.mem_cons_of_mem _
        (runBatch_good env rest _ y hyr hnd.2 hsk' hcn' hci hf hpo hrg)

theorem ingestLoop_raise (env : OrchEnv) :
    ∀ (batches : List (List String)) (st : OrchState) (processed : List String)
      (x : String),
    x ∈ batches.flatten → batches.flatten.Nodup →
    x ∉ st.skipped → x ∉ st.cache → x ∉ processed →
    env.cachedInit x = false → env.fetch x = .fOk → env.process x = .pRaise →
    x ∉ st.processCalls → (∀ w ∈ st.checkpointWrites, x ∉ w) →
    ((x, "process") ∈ (ingestLoop env batches st processed).1.errorLog ∧
     (x, "process_error") ∈ (ingestLoop env batches st processed).1.skipLog ∧
     (ingestLoop env batches st processed).1.processCalls.count x = 1 ∧
     x ∉ (ingestLoop env batches st processed).2 ∧
     ∀ w ∈ (ingestLoop env batches st processed).1.checkpointWrites, x ∉ w)
  | [], _, _, x, hx, _, _, _, _, _, _, _, _, _ => by simp at hx
  | b :: rest, st, processed, x, hx, hnd, hsk, hcn, hxp, hci, hf, hpr, hpc, hw => by
    rw [List.flatten_cons] at hx hnd
    rw [List.nodup_append] at hnd
    obtain ⟨hndb, hndr, hdisj⟩ := hnd
    have hstcw : ({ (runBatch env st b).1 with checkpointWrites :=
        (runBatch env st b).1.checkpointWrites ++
          [setAdd processed (newlyProcessed (runBatch env st b).2)] } :
        OrchState).checkpointWrites =
        st.checkpointWrites ++
          [setAdd processed (newlyProcessed (runBatch env st b).2)] := by
      show (runBatch env st b).1.checkpointWrites ++ _ = _
      rw [runBatch_checkpointWrites env b st]
    rw [ingestLoop_cons]
    rcases List.mem_append.1 hx with hxb | hxr
    · have hxrf : x ∉ rest.flatten := fun h => hdisj hxb h
      obtain ⟨he, hs, hc1, hres⟩ :=
        runBatch_raise env b st x hxb hndb hsk hcn hci hf hpr hpc
      have hxnew : x ∉ newlyProcessed (runBatch env st b).2 :=
        not_mem_newly _ x hres
      have hxp' : x ∉ setAdd processed (newlyProcessed (runBatch env st b).2) := by
        rw [mem_setAdd]
        rintro (h | h)
        exacts [hxp h, hxnew h]
      obtain ⟨_, ⟨te, ee⟩, ⟨ts, es⟩, _, ⟨tp, ep, mpr⟩, _, _⟩ :=
        ingestLoop_frame env rest
          { (runBatch env st b).1 with checkpointWrites :=
              (runBatch env st b).1.checkpointWrites ++
                [setAdd processed (newlyProcessed (runBatch env st b).2)] }
          (setAdd processed (newlyProcessed (runBatch env st b).2))
      obtain ⟨t2, he2, hm2⟩ :=
        ingestLoop_processed env rest
          { (runBatch env st b).1 with checkpointWrites :=
              (runBatch env st b).1.checkpointWrites ++
                [setAdd processed (newlyProcessed (runBatch env st b).2)] }
          (setAdd processed (newlyProcessed (runBatch env st b).2))
      refine ⟨?_, ?_, ?_, ?_, ?_⟩
      · rw [ee]
        exact List.mem_append_left _ he
      · rw [es]
        exact List.mem_append_left _ hs
      · rw [ep, List.count_append]
        have h2 : tp.count x = 0 :=
          List.count_eq_zero.2 (fun hmem => hxrf (mpr x hmem))
        rw [h2]
        show (runBatch env st b).1.processCalls.count x + 0 = 1
        rw [hc1]
      · rw [he2]
        intro hmem
        rcases List.mem_append.1 hmem with h | h
        · exact hxp' h
        · exact hxrf (hm2 x h)
      · intro w hw'
        rcases ingestLoop_writes env rest _ _ w hw' with hin | ⟨t, rfl, hm⟩
        · rw [hstcw] at hin
          rcases List.mem_append.1 hin with h | h
          · exact hw w h
          · rw [List.mem_singleton] at h
            subst h
            exact hxp'
        · intro hmem
          rcases List.mem_append.1 hmem with h | h
          · exact hxp' h
          · exact hxrf (hm x h)
    · have hxb : x ∉ b := fun h => hdisj h hxr
      obtain ⟨⟨t1, e1, m1⟩, _, _, _, ⟨t5, e5, m5⟩, ⟨t6, e6, m6⟩, _⟩ :=
        runBatch_frame env b st
      have hxnew : x ∉ newlyProcessed (runBatch env st b).2 := by
        intro h
        have := newly_sub _ x h
        rw [runBatch_results_fst env b st] at this
        exact hxb this
      have hxp' : x ∉ setAdd processed (newlyProcessed (runBatch env st b).2) := by
        rw [mem_setAdd]
        rintro (h | h)
        exacts [hxp h, hxnew h]
      refine ingestLoop_raise env rest _ _ x hxr hndr ?_ ?_ hxp' hci hf hpr ?_ ?_
      · show x ∉ (runBatch env st b).1.skipped
        rw [e1]
        intro hmem
        rcases List.mem_append.1 hmem with h | h
        exacts [hsk h, hxb (m1 x h)]
      · show x ∉ (runBatch env st b).1.cache
        rw [e6]
        intro hmem
        rcases List.mem_append.1 hmem with h | h
        exacts [hcn h, hxb (m6 x h)]
      · show x ∉ (runBatch env st b).1.processCalls
        rw [e5]
        intro hmem
        rcases List.mem_append.1 hmem with h | h
        exacts [hpc h, hxb (m5 x h)]
      · intro w hmem
        rw [hstcw] at hmem
        rcases List.mem_append.1 hmem with h | h
        · exact hw w h
        · rw [List.mem_singleton] at h
          subst h
          exact hxp'

theorem ingestLoop_good (env : OrchEnv) :
    ∀ (batches : List (List String)) (st : OrchState) (processed : List String)
      (y : String),
    y ∈ batches.flatten → batches.flatten.Nodup →
    y ∉ st.skipped → y ∉ st.cache →
    env.cachedInit y = false → env.fetch y = .fOk → env.process y = .pOk →
    env.ragOk y = true →
    (y ∈ (ingestLoop env batches st processed).2 ∧
     ∃ w ∈ (ingestLoop env batches st processed).1.checkpointWrites, y ∈ w)
  | [], _, _, y, hy, _, _, _, _, _, _, _ => by simp at hy
  | b :: rest, st, processed, y, hy, hnd, hsk, hcn, hci, hf, hpo, hrg => by
    rw [List.flatten_cons] at hy hnd
    rw [List.nodup_append] at hnd
    obtain ⟨hndb, hndr, hdisj⟩ := hnd
    have hstcw : ({ (runBatch env st b).1 with checkpointWrites :=
        (runBatch env st b).1.checkpointWrites ++
          [setAdd processed (newlyProcessed (runBatch env st b).2)] } :
        OrchState).checkpointWrites =
        st.checkpointWrites ++
          [setAdd processed (newlyProcessed (runBatch env st b).2)] := by
      show (runBatch env st b).1.checkpointWrites ++ _ = _
      rw [runBatch_checkpointWrites env b st]
    rw [ingestLoop_cons]
    rcases List.mem_append.1 hy with hyb | hyr
    · have hok := runBatch_good env b st y hyb hndb hsk hcn hci hf hpo hrg
      have hynew : y ∈ newlyProcessed (runBatch env st b).2 :=
        mem_newly_of_ok _ y true hok
      have hyp' : y ∈ setAdd processed (newlyProcessed (runBatch env st b).2) :=
        mem_setAdd.2 (Or.inr hynew)
      obtain ⟨_, _, _, _, _, _, ⟨tw, ew⟩⟩ :=
        ingestLoop_frame env rest
          { (runBatch env st b).1 with checkpointWrites :=
              (runBatch env st b).1.checkpointWrites ++
                [setAdd processed (newlyProcessed (runBatch env st b).2)] }
          (setAdd processed (newlyProcessed (runBatch env st b).2))
      obtain ⟨t2, he2, _⟩ :=
        ingestLoop_processed env rest
          { (runBatch env st b).1 with checkpointWrites :=
              (runBatch env st b).1.checkpointWrites ++
                [setAdd processed (newlyProcessed (runBatch env st b).2)] }
          (setAdd processed (newlyProcessed (runBatch env st b).2))
      refine ⟨?_, ?_⟩
      · rw [he2]
        exact List.mem_append_left _ hyp'
      · refine ⟨setAdd processed (newlyProcessed (runBatch env st b).2), ?_, hyp'⟩
        rw [ew]
        refine List.mem_append_left _ ?_
        rw [hstcw]
        exact List.mem_append_right _ (by simp)
    · have hyb : y ∉ b := fun h => hdisj h hyr
      obtain ⟨⟨t1, e1, m1⟩, _, _, _, _, ⟨t6, e6, m6⟩, _⟩ := runBatch_frame env b st
      refine ingestLoop_good env rest _ _ y hyr hndr ?_ ?_ hci hf hpo hrg
      · show y ∉ (runBatch env st b).1.skipped
        rw [e1]
        intro hmem
        rcases List.mem_append.1 hmem with h | h
        exacts [hsk h, hyb (m1 y h)]
      · show y ∉ (runBatch env st b).1.cache
        rw [e6]
        intro hmem
        rcases List.mem_append.1 hmem with h | h
        exacts [hcn h, hyb (m6 y h)]

theorem psp_pres (env : OrchEnv) (st : OrchState) (pid z : String)
    (hz : z ∈ st.skipped) (hzf : z ∉ st.fetchCalls) :
    z ∈ (processSinglePaper env st pid).1.skipped ∧
    z ∉ (processSinglePaper env st pid).1.fetchCalls := by
  by_cases hpz : pid = z
  · subst hpz
    rw [psp_skip env st pid hz]
    exact ⟨hz, hzf⟩
  · obtain ⟨⟨t1, e1, m1⟩, _, _, ⟨t4, e4, m4⟩, _, _, _⟩ := psp_frame env st pid
    refine ⟨by rw [e1]; exact List.mem_append_left _ hz, ?_⟩
    rw [e4]
    intro hmem
    rcases List.mem_append.1 hmem with h | h
    · exact hzf h
    · have := m4 z h
      rw [List.mem_singleton] at this
      exact hpz this.symm

theorem runBatch_pres (env : OrchEnv) :
    ∀ (b : List String) (st : OrchState) (z : String),
    z ∈ st.skipped → z ∉ st.fetchCalls →
    z ∈ (runBatch env st b).1.skipped ∧ z ∉ (runBatch env st b).1.fetchCalls
  | [], _, _, hz, hzf => ⟨hz, hzf⟩
  | pid :: rest, st, z, hz, hzf => by
    rw [runBatch_cons]
    obtain ⟨h1, h2⟩ := psp_pres env st pid z hz hzf
    exact runBatch_pres env rest _ z h1 h2

theorem ingestLoop_pres (env : OrchEnv) :
    ∀ (batches : List (List String)) (st : OrchState) (processed : List String)
      (z : String),
    z ∈ st.skipped → z ∉ st.fetchCalls →
    z ∈ (ingestLoop env batches st processed).1.skipped ∧
    z ∉ (ingestLoop env batches st processed).1.fetchCalls
  | [], _, _, _, hz, hzf => ⟨hz, hzf⟩
  | b :: rest, st, processed, z, hz, hzf => by
    rw [ingestLoop_cons]
    obtain ⟨h1, h2⟩ := runBatch_pres env b st z hz hzf
    exact ingestLoop_pres env rest _ _ z h1 h2

/-- C3: a paper whose `process_pdf` raises gets an error-log entry with
stage `process` and a skip-log entry with reason `process_error`, is
processed exactly once in the whole run (never retried), never enters
`processed_ids` nor any checkpoint write, while every other paper of the
run whose collaborators behave (fetch succeeds, processing and RAG
insertion succeed) still completes: it ends up in `processed_ids` and in
a checkpoint write.  (The run starts from a fresh ingester state whose
skip log yields `skipped0` and a checkpoint holding `processed0`.) -/
theorem c3_process_error_isolation (env : OrchEnv)
    (skipped0 processed0 papers : List String) (x : String) (bs : Nat)
    (hbs : 0 < bs) (hnd : papers.Nodup) (hx : x ∈ papers)
    (hxp : x ∉ processed0) (hxs : x ∉ skipped0)
    (hci : env.cachedInit x = false) (hf : env.fetch x = FetchRes.fOk)
    (hpr : env.process x = ProcRes.pRaise) :
    (x, "process") ∈
        (ingestPapers env (startState skipped0) processed0 papers bs).1.errorLog ∧
    (x, "process_error") ∈
        (ingestPapers env (startState skipped0) processed0 papers bs).1.skipLog ∧
    ((ingestPapers env (startState skipped0) processed0 papers
        bs).1.processCalls).count x = 1 ∧
    x ∉ (ingestPapers env (startState skipped0) processed0 papers bs).2 ∧
    (∀ w ∈ (ingestPapers env (startState skipped0) processed0 papers
        bs).1.checkpointWrites, x ∉ w) ∧
    (∀ y ∈ papers, y ≠ x → y ∉ processed0 → y ∉ skipped0 →
      env.cachedInit y = false → env.fetch y = FetchRes.fOk →
      env.process y = ProcRes.pOk → env.ragOk y = true →
      y ∈ (ingestPapers env (startState skipped0) processed0 papers bs).2 ∧
      ∃ w ∈ (ingestPapers env (startState skipped0) processed0 papers
          bs).1.checkpointWrites, y ∈ w) := by
  have hx' : x ∈ papers.filter (fun p => p ∉ processed0) :=
    List.mem_filter.2 ⟨hx, by simpa using hxp⟩
  have hne : (papers.filter (fun p => p ∉ processed0)).isEmpty = false := by
    cases hl : papers.filter (fun p => p ∉ processed0) with
    | nil => rw [hl] at hx'; simp at hx'
    | cons a t => rfl
  have hred : ingestPapers env (startState skipped0) processed0 papers bs =
      ingestLoop env (toBatches bs (papers.filter (fun p => p ∉ processed0)))
        (startState skipped0) processed0 := by
    show (if (papers.filter (fun p => p ∉ processed0)).isEmpty = true then
        (startState skipped0, processed0)
      else ingestLoop env (toBatches bs (papers.filter (fun p => p ∉ processed0)))
        (startState skipped0) processed0) = _
    rw [hne]
    simp
  rw [hred]
  have hflat : (toBatches bs (papers.filter (fun p => p ∉ processed0))).flatten =
      papers.filter (fun p => p ∉ processed0) := toBatches_flatten bs hbs _
  have hndf : (papers.filter (fun p => p ∉ processed0)).Nodup := hnd.filter _
  obtain ⟨h1, h2, h3, h4, h5⟩ := ingestLoop_raise env
    (toBatches bs (papers.filter (fun p => p ∉ processed0)))
    (startState skipped0) processed0 x
    (hflat.symm ▸ hx') (hflat.symm ▸ hndf) hxs (List.not_mem_nil x) hxp hci hf hpr
    (List.not_mem_nil x) (fun w hw => absurd hw (List.not_mem_nil w))
  refine ⟨h1, h2, h3, h4, h5, ?_⟩
  intro y hy _ hyp hys hyci hyf hypo hyrg
  have hy' : y ∈ papers.filter (fun p => p ∉ processed0) :=
    List.mem_filter.2 ⟨hy, by simpa using hyp⟩
  exact ingestLoop_good env
    (toBatches bs (papers.filter (fun p => p ∉ processed0)))
    (startState skipped0) processed0 y
    (hflat.symm ▸ hy') (hflat.symm ▸ hndf) hys (List.not_mem_nil y) hyci hyf hypo hyrg

theorem c3_process_error_isolation_witness :
    (0 < 2 ∧ (["old", "a", "x", "b"] : List String).Nodup ∧
      "x" ∈ (["old", "a", "x", "b"] : List String) ∧
      "x" ∉ (["old"] : List String) ∧ "x" ∉ ([] : List String) ∧
      cEnv.cachedInit "x" = false ∧ cEnv.fetch "x" = FetchRes.fOk ∧
      cEnv.process "x" = ProcRes.pRaise) ∧
    (("x", "process") ∈
        (ingestPapers cEnv (startState []) ["old"] ["old", "a", "x", "b"]
          2).1.errorLog ∧
     ("x", "process_error") ∈
        (ingestPapers cEnv (startState []) ["old"] ["old", "a", "x", "b"]
          2).1.skipLog ∧
     ((ingestPapers cEnv (startState []) ["old"] ["old", "a", "x", "b"]
        2).1.processCalls).count "x" = 1 ∧
     "x" ∉ (ingestPapers cEnv (startState []) ["old"] ["old", "a", "x", "b"] 2).2 ∧
     (∀ w ∈ (ingestPapers cEnv (startState []) ["old"] ["old", "a", "x", "b"]
        2).1.checkpointWrites, "x" ∉ w) ∧
     (∀ y ∈ (["old", "a", "x", "b"] : List String), y ≠ "x" →
        y ∉ (["old"] : List String) → y ∉ ([] : List String) →
        cEnv.cachedInit y = false → cEnv.fetch y = FetchRes.fOk →
        cEnv.process y = ProcRes.pOk → cEnv.ragOk y = true →
        y ∈ (ingestPapers cEnv (startState []) ["old"] ["old", "a", "x", "b"]
          2).2 ∧
        ∃ w ∈ (ingestPapers cEnv (startState []) ["old"] ["old", "a", "x", "b"]
            2).1.checkpointWrites, y ∈ w)) :=
  ⟨⟨by decide, by decide, by decide, by decide, by decide, by decide, by decide,
      by decide⟩,
    c3_process_error_isolation cEnv [] ["old"] ["old", "a", "x", "b"] "x" 2
      (by decide) (by decide) (by decide) (by decide) (by decide) (by decide)
      (by decide) (by decide)⟩

/-- C5: without a force-reprocess directive (the code has none), an id
already in the loaded `processed_ids` checkpoint is filtered out before
any batch is formed, so it is never fetched (nor processed) during the
run; and an id in the skipped set loaded from the skip log is returned
from `process_single_paper` before any fetch, so it is never fetched
either. -/
theorem c5_checkpointed_never_refetched (env : OrchEnv)
    (skipped0 processed0 papers : List String) (bs : Nat) :
    (∀ z ∈ processed0,
      z ∉ (ingestPapers env (startState skipped0) processed0 papers
        bs).1.fetchCalls ∧
      z ∉ (ingestPapers env (startState skipped0) processed0 papers
        bs).1.processCalls) ∧
    (∀ z ∈ skipped0,
      z ∉ (ingestPapers env (startState skipped0) processed0 papers
        bs).1.fetchCalls) := by
  cases hne : (papers.filter (fun p => p ∉ processed0)).isEmpty with
  | true =>
    have hred : ingestPapers env (startState skipped0) processed0 papers bs =
        (startState skipped0, processed0) := by
      show (if (papers.filter (fun p => p ∉ processed0)).isEmpty = true then
          (startState skipped0, processed0)
        else ingestLoop env
          (toBatches bs (papers.filter (fun p => p ∉ processed0)))
          (startState skipped0) processed0) = _
      rw [hne]
      simp
    rw [hred]
    exact ⟨fun z _ => ⟨List.not_mem_nil z, List.not_mem_nil z⟩,
      fun z _ => List.not_mem_nil z⟩
  | false =>
    have hred : ingestPapers env (startState skipped0) processed0 papers bs =
        ingestLoop env (toBatches bs (papers.filter (fun p => p ∉ processed0)))
          (startState skipped0) processed0 := by
      show (if (papers.filter (fun p => p ∉ processed0)).isEmpty = true then
          (startState skipped0, processed0)
        else ingestLoop env
          (toBatches bs (papers.filter (fun p => p ∉ processed0)))
          (startState skipped0) processed0) = _
      rw [hne]
      simp
    rw [hred]
    obtain ⟨_, _, _, ⟨tf, ef, mf⟩, ⟨tp, epp, mpp⟩, _, _⟩ :=
      ingestLoop_frame env
        (toBatches bs (papers.filter (fun p => p ∉ processed0)))
        (startState skipped0) processed0
    constructor
    · intro z hz
      have hzn : z ∉ papers.filter (fun p => p ∉ processed0) := by
        intro hmem
        have := (List.mem_filter.1 hmem).2
        simp at this
        exact this hz
      constructor
      · rw [ef]
        intro hmem
        rcases List.mem_append.1 hmem with h | h
        · exact absurd h (List.not_mem_nil z)
        · exact hzn (toBatches_flatten_sub bs _ z (mf z h))
      · rw [epp]
        intro hmem
        rcases List.mem_append.1 hmem with h | h
        · exact absurd h (List.not_mem_nil z)
        · exact hzn (toBatches_flatten_sub bs _ z (mpp z h))
    · intro z hz
      exact (ingestLoop_pres env
        (toBatches bs (papers.filter (fun p => p ∉ processed0)))
        (startState skipped0) processed0 z hz (List.not_mem_nil z)).2

theorem c5_checkpointed_never_refetched_witness :
    (∀ z ∈ (["old"] : List String),
      z ∉ (ingestPapers cEnv (startState ["s"]) ["old"] ["old", "s", "a"]
        2).1.fetchCalls ∧
      z ∉ (ingestPapers cEnv (startState ["s"]) ["old"] ["old", "s", "a"]
        2).1.processCalls) ∧
    (∀ z ∈ (["s"] : List String),
      z ∉ (ingestPapers cEnv (startState ["s"]) ["old"] ["old", "s", "a"]
        2).1.fetchCalls) :=
  c5_checkpointed_never_refetched cEnv ["s"] ["old"] ["old", "s", "a"] 2

end Arxival
